import Mathlib

/-!
A verification development for the EASTL `bitvector` container
(`eastl/bitvector.h`): a resizable sequence of booleans packed one bit per
position into fixed-width machine words.

The embedding is parametric in the word width `w` (the source's `kBitCount =
8 * sizeof(Element)`).  A word is modelled as a `Nat`; all reads and writes
go through `Nat.testBit` at offsets `< w`, exactly mirroring the source's
mask operations `|= (1 << i)` and `&= ~(1 << i)`.  Word pointers are
modelled as integer word indices relative to the start of the underlying
container (`&mContainer[0]` is index 0).

The growable word store (`eastl::vector`) is not part of this repository;
its operations used here (`pushBack`, `popBack`, `resize`, `clear`) are
modelled from the spec's Word Store interface, with unspecified/fresh word
contents passed in explicitly as a `junk` parameter.
-/

namespace EastlBitvector

/-! ## Words

A machine word of width `w` is a `Nat`; bit `i` of word `x` is `x.testBit i`.
`wordWrite` is the source's `bitvector_reference::operator=(bool)`:
`*mpBitWord |= mask` or `*mpBitWord &= ~mask` with `mask = 1 << off`, where
`~mask` on a `w`-bit element equals `(2^w - 1) ^^^ mask`. -/

def wordWrite (w : Nat) (x : Nat) (off : Nat) (b : Bool) : Nat :=
  if b then x ||| (1 <<< off) else x &&& (((1 <<< w) - 1) ^^^ (1 <<< off))

theorem wordWrite_testBit {w : Nat} (x off : Nat) (b : Bool) (i : Nat) (hi : i < w) :
    (wordWrite w x off b).testBit i = if i = off then b else x.testBit i := by
  unfold wordWrite
  cases b with
  | true =>
    simp only [if_true]
    rw [Nat.testBit_lor, Nat.shiftLeft_eq, one_mul, Nat.testBit_two_pow]
    by_cases h : i = off
    · subst h; simp
    · simp [h, Ne.symm h]
  | false =>
    simp only [Bool.false_eq_true, if_false]
    rw [Nat.testBit_land, Nat.testBit_xor, Nat.shiftLeft_eq, one_mul,
      Nat.shiftLeft_eq, one_mul, Nat.testBit_two_pow_sub_one, Nat.testBit_two_pow]
    by_cases h : i = off
    · subst h; simp [hi]
    · simp [h, Ne.symm h, hi]

/-! ## Linear bit access into a word list

`cGet`/`cSet` read and write the bit at linear index `i` of a container
`c : List Nat`: word `i / w`, offset `i % w`.  These are the linear-index
views of dereferencing a canonical bit iterator/proxy. -/

def cGet (w : Nat) (c : List Nat) (i : Nat) : Bool :=
  (c.getD (i / w) 0).testBit (i % w)

def cSet (w : Nat) (c : List Nat) (i : Nat) (b : Bool) : List Nat :=
  c.set (i / w) (wordWrite w (c.getD (i / w) 0) (i % w) b)

theorem length_cSet (w : Nat) (c : List Nat) (i : Nat) (b : Bool) :
    (cSet w c i b).length = c.length := by
  simp [cSet]

theorem getD_set_self {c : List Nat} {i : Nat} (x d : Nat) (h : i < c.length) :
    (c.set i x).getD i d = x := by
  simp [List.getD_eq_getElem?_getD, List.getElem?_set_self h]

theorem getD_set_ne {c : List Nat} {i j : Nat} (x d : Nat) (h : i ≠ j) :
    (c.set i x).getD j d = c.getD j d := by
  simp [List.getD_eq_getElem?_getD, List.getElem?_set_ne h]

theorem cGet_cSet_self {w : Nat} (hw : 0 < w) {c : List Nat} {i : Nat} (b : Bool)
    (h : i / w < c.length) : cGet w (cSet w c i b) i = b := by
  unfold cGet cSet
  rw [getD_set_self _ _ h, wordWrite_testBit _ _ _ _ (Nat.mod_lt _ hw)]
  simp

theorem cGet_cSet_ne {w : Nat} (hw : 0 < w) {c : List Nat} {i j : Nat} (b : Bool)
    (hne : i ≠ j) : cGet w (cSet w c i b) j = cGet w c j := by
  unfold cGet cSet
  by_cases hij : i / w = j / w
  · have hmod : i % w ≠ j % w := by
      intro hm
      apply hne
      have h1 := Nat.div_add_mod i w
      have h2 := Nat.div_add_mod j w
      rw [hij, hm] at h1
      omega
    by_cases hr : i / w < c.length
    · rw [hij] at hr ⊢
      rw [getD_set_self _ _ hr, wordWrite_testBit _ _ _ _ (Nat.mod_lt _ hw),
        if_neg (fun hh => hmod hh.symm)]
    · rw [List.set_eq_of_length_le (by omega)]
  · rw [getD_set_ne _ _ hij]

theorem cGet_append_left {w : Nat} (hw : 0 < w) {c c' : List Nat} {j : Nat}
    (h : j < c.length * w) : cGet w (c ++ c') j = cGet w c j := by
  unfold cGet
  have hdiv : j / w < c.length := Nat.div_lt_of_lt_mul (by rwa [Nat.mul_comm] at h)
  simp [List.getD_eq_getElem?_getD, List.getElem?_append, hdiv]

theorem cGet_take {w : Nat} (hw : 0 < w) {c : List Nat} {m j : Nat}
    (h : j < m * w) : cGet w (c.take m) j = cGet w c j := by
  unfold cGet
  have hdiv : j / w < m := Nat.div_lt_of_lt_mul (by rwa [Nat.mul_comm] at h)
  simp [List.getD_eq_getElem?_getD, List.getElem?_take, hdiv]

theorem cGet_append_replicate {w : Nat} (hw : 0 < w) {c : List Nat} {m e j : Nat}
    (h1 : c.length * w ≤ j) (h2 : j < (c.length + m) * w) :
    cGet w (c ++ List.replicate m e) j = e.testBit (j % w) := by
  unfold cGet
  have hge : c.length ≤ j / w := Nat.le_div_iff_mul_le hw |>.mpr h1
  have hlt : j / w < c.length + m := Nat.div_lt_of_lt_mul (by rwa [Nat.mul_comm] at h2)
  simp only [List.getD_eq_getElem?_getD, List.getElem?_append,
    if_neg (by omega : ¬ j / w < c.length), List.getElem?_replicate,
    if_pos (by omega : j / w - c.length < m), Option.getD_some]

/-! ## Bit iterators

`bitvector_const_iterator<Element>` holds a `bitvector_reference`
`(mpBitWord, mnBitIndex)`.  The word pointer is modelled as an integer word
index relative to `&mContainer[0]`. -/

structure BitIter where
  word : Int
  bit : Nat
deriving DecidableEq, Repr

/-- Source `operator++`: advance the offset, rolling into the next word at `kBitCount`. -/
def itInc (w : Nat) (it : BitIter) : BitIter :=
  if it.bit + 1 = w then ⟨it.word + 1, 0⟩ else ⟨it.word, it.bit + 1⟩

/-- Source `operator--`: on offset 0 step back one word to offset `kBitCount - 1`. -/
def itDec (w : Nat) (it : BitIter) : BitIter :=
  if it.bit = 0 then ⟨it.word - 1, w - 1⟩ else ⟨it.word, it.bit - 1⟩

/-- Source `operator+=`: the source first folds the current offset into the delta
(`n += mnBitIndex`); a nonnegative total is split as `n / kBitCount` words
plus offset `n % kBitCount`, a negative one goes through the unsigned
`backwards = -n + kBitCount - 1` computation. -/
def itAdd (w : Nat) (it : BitIter) (n : Int) : BitIter :=
  if 0 ≤ n + it.bit then
    ⟨it.word + ((n + (it.bit : Int)).toNat / w : Nat), (n + (it.bit : Int)).toNat % w⟩
  else
    ⟨it.word - (((-(n + (it.bit : Int)) + w - 1).toNat / w : Nat)),
      (w - 1) - (-(n + (it.bit : Int)) + w - 1).toNat % w⟩

/-- Source `operator-(rhs)`: `(word(a) - word(b)) * kBitCount + bit(a) - bit(b)`. -/
def itSub (w : Nat) (a b : BitIter) : Int :=
  (a.word - b.word) * w + (a.bit : Int) - (b.bit : Int)

/-- Source `operator<=`: lexicographic on `(word, bit)`. -/
def itLe (a b : BitIter) : Prop :=
  a.word < b.word ∨ (a.word = b.word ∧ a.bit ≤ b.bit)

instance (a b : BitIter) : Decidable (itLe a b) := by unfold itLe; infer_instance

/-- The linear bit position an iterator designates. -/
def toLin (w : Nat) (it : BitIter) : Int := it.word * w + it.bit

/-- An iterator in canonical form: offset strictly below the word width. -/
def canon (w : Nat) (it : BitIter) : Prop := it.bit < w

instance (w : Nat) (it : BitIter) : Decidable (canon w it) := by
  unfold canon
  infer_instance

/-- The nonnegative linear position, for memory access. -/
def linOf (w : Nat) (it : BitIter) : Nat := (toLin w it).toNat

theorem toLin_lt_of_word_lt {w : Nat} {a b : BitIter} (ha : canon w a)
    (hlt : a.word < b.word) : toLin w a < toLin w b := by
  unfold toLin canon at *
  have h1 : (a.bit : Int) < w := by exact_mod_cast ha
  have h2 : (a.word + 1) * (w : Int) ≤ b.word * w :=
    mul_le_mul_of_nonneg_right (by omega) (Int.natCast_nonneg w)
  rw [add_mul, one_mul] at h2
  have h3 : (0 : Int) ≤ b.bit := Int.natCast_nonneg _
  linarith

theorem toLin_inj {w : Nat} {a b : BitIter} (ha : canon w a) (hb : canon w b)
    (h : toLin w a = toLin w b) : a = b := by
  have hword : a.word = b.word := by
    by_contra hne
    rcases Ne.lt_or_lt hne with hlt | hlt
    · exact absurd h (ne_of_lt (toLin_lt_of_word_lt ha hlt))
    · exact absurd h.symm (ne_of_lt (toLin_lt_of_word_lt hb hlt))
  have hbit : a.bit = b.bit := by
    unfold toLin at h
    rw [hword] at h
    have h2 : ((a.bit : Int)) = b.bit := by
      exact add_left_cancel h
    exact_mod_cast h2
  calc a = ⟨a.word, a.bit⟩ := rfl
    _ = ⟨b.word, b.bit⟩ := by rw [hword, hbit]
    _ = b := rfl

theorem itLe_iff {w : Nat} {a b : BitIter} (ha : canon w a) (hb : canon w b) :
    itLe a b ↔ toLin w a ≤ toLin w b := by
  constructor
  · rintro (hlt | ⟨heq, hle⟩)
    · exact le_of_lt (toLin_lt_of_word_lt ha hlt)
    · unfold toLin
      rw [heq]
      have hle2 : (a.bit : Int) ≤ b.bit := by exact_mod_cast hle
      linarith
  · intro h
    by_cases hww : a.word = b.word
    · right
      refine ⟨hww, ?_⟩
      unfold toLin at h
      rw [hww] at h
      have h2 : (a.bit : Int) ≤ b.bit := le_of_add_le_add_left h
      exact_mod_cast h2
    · left
      rcases Ne.lt_or_lt hww with hlt | hlt
      · exact hlt
      · exact absurd h (not_le.mpr (toLin_lt_of_word_lt hb hlt))

theorem itInc_canon {w : Nat} {it : BitIter} (h : canon w it) : canon w (itInc w it) := by
  unfold canon itInc at *
  split <;> simp <;> omega

theorem toLin_itInc {w : Nat} {it : BitIter} (h : canon w it) :
    toLin w (itInc w it) = toLin w it + 1 := by
  unfold canon itInc toLin at *
  split
  · rename_i heq
    simp only
    have hcast : (w : Int) = (it.bit : Int) + 1 := by exact_mod_cast heq.symm
    rw [hcast]
    push_cast
    ring
  · simp only
    push_cast
    ring

theorem itDec_canon {w : Nat} (hw : 0 < w) {it : BitIter} (h : canon w it) :
    canon w (itDec w it) := by
  unfold canon itDec at *
  split <;> simp <;> omega

theorem toLin_itDec {w : Nat} (hw : 0 < w) {it : BitIter} (h : canon w it) :
    toLin w (itDec w it) = toLin w it - 1 := by
  unfold canon itDec toLin at *
  split
  · rename_i heq
    simp only [heq]
    have hcast : ((w - 1 : Nat) : Int) = (w : Int) - 1 := by omega
    rw [hcast]
    push_cast
    ring
  · rename_i hne
    simp only
    have hcast : ((it.bit - 1 : Nat) : Int) = (it.bit : Int) - 1 := by omega
    rw [hcast]
    ring

theorem itAdd_canon {w : Nat} (hw : 0 < w) (it : BitIter) (n : Int) :
    canon w (itAdd w it n) := by
  unfold canon itAdd
  split
  · exact Nat.mod_lt _ hw
  · simp only
    omega

theorem toLin_itAdd {w : Nat} (hw : 0 < w) (it : BitIter) (n : Int) :
    toLin w (itAdd w it n) = toLin w it + n := by
  unfold toLin itAdd
  split
  · rename_i hm
    simp only
    obtain ⟨q, r, hqr, hrw⟩ : ∃ q r, w * q + r = (n + (it.bit : Int)).toNat ∧ r < w :=
      ⟨_ / w, _ % w, Nat.div_add_mod _ w, Nat.mod_lt _ hw⟩
    have hq : (n + (it.bit : Int)).toNat / w = q := by
      rw [← hqr, Nat.mul_add_div hw, Nat.div_eq_of_lt hrw]
      omega
    have hr : (n + (it.bit : Int)).toNat % w = r := by
      rw [← hqr, Nat.mul_add_mod, Nat.mod_eq_of_lt hrw]
    rw [hq, hr]
    have hcast : ((w : Int)) * q + r = n + it.bit := by
      rw [show ((w : Int)) * q + r = ((w * q + r : Nat) : Int) from by push_cast; ring, hqr,
        Int.toNat_of_nonneg hm]
    push_cast
    linear_combination hcast
  · rename_i hm
    push_neg at hm
    simp only
    obtain ⟨q, r, hqr, hrw⟩ : ∃ q r, w * q + r = (-(n + (it.bit : Int)) + w - 1).toNat ∧ r < w :=
      ⟨_ / w, _ % w, Nat.div_add_mod _ w, Nat.mod_lt _ hw⟩
    have hq : (-(n + (it.bit : Int)) + w - 1).toNat / w = q := by
      rw [← hqr, Nat.mul_add_div hw, Nat.div_eq_of_lt hrw]
      omega
    have hr : (-(n + (it.bit : Int)) + w - 1).toNat % w = r := by
      rw [← hqr, Nat.mul_add_mod, Nat.mod_eq_of_lt hrw]
    rw [hq, hr]
    have hcast : ((w : Int)) * q + r = -(n + it.bit) + w - 1 := by
      rw [show ((w : Int)) * q + r = ((w * q + r : Nat) : Int) from by push_cast; ring, hqr,
        Int.toNat_of_nonneg (by omega)]
    have hbcast : ((w - 1 - r : Nat) : Int) = (w : Int) - 1 - r := by omega
    rw [hbcast]
    push_cast
    linear_combination (-1 : Int) * hcast

theorem itSub_eq {w : Nat} (a b : BitIter) :
    itSub w a b = toLin w a - toLin w b := by
  unfold itSub toLin
  ring

theorem word_nonneg_of_canon {w : Nat} {it : BitIter} (hc : canon w it)
    (h : 0 ≤ toLin w it) : 0 ≤ it.word := by
  unfold toLin at h
  unfold canon at hc
  by_contra hneg
  push_neg at hneg
  have h1 : it.word ≤ -1 := by omega
  have h2 : it.word * (w : Int) ≤ (-1 : Int) * w :=
    mul_le_mul_of_nonneg_right h1 (Int.natCast_nonneg w)
  rw [neg_one_mul] at h2
  have h3 : ((it.bit : Int)) < w := by exact_mod_cast hc
  linarith

theorem toLin_eq_linOf {w : Nat} {it : BitIter} (h : 0 ≤ toLin w it) :
    toLin w it = (linOf w it : Int) := by
  unfold linOf
  rw [Int.toNat_of_nonneg h]

theorem linOf_div {w : Nat} (hw : 0 < w) {it : BitIter} (hc : canon w it)
    (h : 0 ≤ toLin w it) : linOf w it / w = it.word.toNat ∧ linOf w it % w = it.bit := by
  have hword := word_nonneg_of_canon hc h
  obtain ⟨k, hk⟩ : ∃ k : Nat, it.word = (k : Int) :=
    ⟨it.word.toNat, (Int.toNat_of_nonneg hword).symm⟩
  have hlin : linOf w it = w * k + it.bit := by
    unfold linOf toLin
    rw [hk, show ((k : Int)) * w + (it.bit : Int) = ((w * k + it.bit : Nat) : Int) from by
      push_cast; ring, Int.toNat_natCast]
  refine ⟨?_, ?_⟩
  · rw [hlin, Nat.mul_add_div hw, Nat.div_eq_of_lt hc, Nat.add_zero, hk, Int.toNat_natCast]
  · rw [hlin, Nat.mul_add_mod, Nat.mod_eq_of_lt hc]

/-! ## Dereference through an iterator

A mutable iterator dereferences to a `bitvector_reference` at its
coordinates; assigning through it is `wordWrite` on the addressed word. -/

def readIt (c : List Nat) (it : BitIter) : Bool :=
  (c.getD it.word.toNat 0).testBit it.bit

def writeIt (w : Nat) (c : List Nat) (it : BitIter) (b : Bool) : List Nat :=
  c.set it.word.toNat (wordWrite w (c.getD it.word.toNat 0) it.bit b)

theorem readIt_eq {w : Nat} (hw : 0 < w) {c : List Nat} {it : BitIter}
    (hc : canon w it) (h : 0 ≤ toLin w it) : readIt c it = cGet w c (linOf w it) := by
  unfold readIt cGet
  obtain ⟨hdiv, hmod⟩ := linOf_div hw hc h
  rw [hdiv, hmod]

theorem writeIt_eq {w : Nat} (hw : 0 < w) {c : List Nat} {it : BitIter} (b : Bool)
    (hc : canon w it) (h : 0 ≤ toLin w it) : writeIt w c it b = cSet w c (linOf w it) b := by
  unfold writeIt cSet
  obtain ⟨hdiv, hmod⟩ := linOf_div hw hc h
  rw [hdiv, hmod]

/-! ## Bit-Range Move

`MoveBits(start, end, dest)` copies the bits of `[start, end)` to the range
beginning at `dest`, one bit at a time, forward when `dest <= start` and
backward otherwise.  The source's `while (start != end)` loops are written
with an explicit fuel; `MoveBits` supplies exactly `end - start` units,
which the termination lemmas show is the number of iterations the source
loop performs. -/

def moveFwd (w : Nat) : Nat → List Nat → BitIter → BitIter → BitIter → List Nat
  | 0, c, _, _, _ => c
  | fuel + 1, c, s, e, d =>
    if s = e then c
    else moveFwd w fuel (writeIt w c d (readIt c s)) (itInc w s) e (itInc w d)

def moveBwd (w : Nat) : Nat → List Nat → BitIter → BitIter → BitIter → List Nat
  | 0, c, _, _, _ => c
  | fuel + 1, c, s, e, d =>
    if s = e then c
    else moveBwd w fuel (writeIt w c (itDec w d) (readIt c (itDec w e))) s (itDec w e) (itDec w d)

def MoveBits (w : Nat) (c : List Nat) (start last dest : BitIter) : List Nat :=
  if itLe dest start then
    moveFwd w (itSub w last start).toNat c start last dest
  else
    moveBwd w (itSub w last start).toNat c start last (itAdd w dest (itSub w last start))

/-! ### Linear-index views of the two copy loops -/

/-- The forward loop of `MoveBits` in linear coordinates: `k` bits are copied
from positions `si, si+1, ...` to `di, di+1, ...`, lowest first. -/
def copyFwd (w : Nat) : Nat → List Nat → Nat → Nat → List Nat
  | 0, c, _, _ => c
  | k + 1, c, si, di => copyFwd w k (cSet w c di (cGet w c si)) (si + 1) (di + 1)

/-- The backward loop of `MoveBits` in linear coordinates: `k` bits are copied
from positions `si+k-1, ...` down to `si`, highest first. -/
def copyBwd (w : Nat) : Nat → List Nat → Nat → Nat → List Nat
  | 0, c, _, _ => c
  | k + 1, c, si, di => copyBwd w k (cSet w c (di + k) (cGet w c (si + k))) si di

theorem length_copyFwd (w : Nat) (k : Nat) (c : List Nat) (si di : Nat) :
    (copyFwd w k c si di).length = c.length := by
  induction k generalizing c si di with
  | zero => rfl
  | succ k ih => rw [copyFwd, ih, length_cSet]

theorem length_copyBwd (w : Nat) (k : Nat) (c : List Nat) (si di : Nat) :
    (copyBwd w k c si di).length = c.length := by
  induction k generalizing c with
  | zero => rfl
  | succ k ih => rw [copyBwd, ih, length_cSet]

theorem copyFwd_get {w : Nat} (hw : 0 < w) (k : Nat) (c : List Nat) (si di : Nat)
    (hord : di ≤ si) (hrange : di + k ≤ c.length * w) (j : Nat) :
    cGet w (copyFwd w k c si di) j =
      if di ≤ j ∧ j < di + k then cGet w c (si + (j - di)) else cGet w c j := by
  induction k generalizing c si di with
  | zero =>
    rw [copyFwd, if_neg (by omega)]
  | succ k ih =>
    rw [copyFwd]
    have hlen : (cSet w c di (cGet w c si)).length = c.length := length_cSet ..
    have hr2 : di + 1 + k ≤ (cSet w c di (cGet w c si)).length * w := by rw [hlen]; omega
    rw [ih _ (si + 1) (di + 1) (by omega) hr2]
    by_cases hj : di + 1 ≤ j ∧ j < di + 1 + k
    · rw [if_pos hj, if_pos (by omega)]
      have hsrc : si + 1 + (j - (di + 1)) = si + (j - di) := by omega
      rw [hsrc]
      exact cGet_cSet_ne hw _ (by omega)
    · rw [if_neg hj]
      by_cases hdj : j = di
      · subst hdj
        rw [if_pos (by omega)]
        have hself : cGet w (cSet w c j (cGet w c si)) j = cGet w c si :=
          cGet_cSet_self hw _ (Nat.div_lt_of_lt_mul (by rw [Nat.mul_comm]; omega))
        rw [hself]
        congr 1
        omega
      · rw [if_neg (by omega), cGet_cSet_ne hw _ (by omega)]

theorem copyBwd_get {w : Nat} (hw : 0 < w) (k : Nat) (c : List Nat) (si di : Nat)
    (hord : si ≤ di) (hrange : di + k ≤ c.length * w) (j : Nat) :
    cGet w (copyBwd w k c si di) j =
      if di ≤ j ∧ j < di + k then cGet w c (si + (j - di)) else cGet w c j := by
  induction k generalizing c with
  | zero =>
    rw [copyBwd, if_neg (by omega)]
  | succ k ih =>
    rw [copyBwd]
    have hlen : (cSet w c (di + k) (cGet w c (si + k))).length = c.length := length_cSet ..
    have hr2 : di + k ≤ (cSet w c (di + k) (cGet w c (si + k))).length * w := by rw [hlen]; omega
    rw [ih _ hr2]
    by_cases hj : di ≤ j ∧ j < di + k
    · rw [if_pos hj, if_pos (by omega)]
      exact cGet_cSet_ne hw _ (by omega)
    · rw [if_neg hj]
      by_cases hdj : j = di + k
      · rw [if_pos (by omega), hdj]
        have hself : cGet w (cSet w c (di + k) (cGet w c (si + k))) (di + k) = cGet w c (si + k) :=
          cGet_cSet_self hw _ (Nat.div_lt_of_lt_mul (by rw [Nat.mul_comm]; omega))
        rw [hself]
        congr 1
        omega
      · rw [if_neg (by omega), cGet_cSet_ne hw _ (by omega)]

theorem length_writeIt (w : Nat) (c : List Nat) (it : BitIter) (b : Bool) :
    (writeIt w c it b).length = c.length := by
  simp [writeIt]

theorem length_moveFwd (w : Nat) (fuel : Nat) (c : List Nat) (s e d : BitIter) :
    (moveFwd w fuel c s e d).length = c.length := by
  induction fuel generalizing c s d with
  | zero => rfl
  | succ fuel ih =>
    rw [moveFwd]
    split
    · rfl
    · rw [ih, length_writeIt]

theorem length_moveBwd (w : Nat) (fuel : Nat) (c : List Nat) (s e d : BitIter) :
    (moveBwd w fuel c s e d).length = c.length := by
  induction fuel generalizing c e d with
  | zero => rfl
  | succ fuel ih =>
    rw [moveBwd]
    split
    · rfl
    · rw [ih, length_writeIt]

theorem length_MoveBits (w : Nat) (c : List Nat) (s e d : BitIter) :
    (MoveBits w c s e d).length = c.length := by
  unfold MoveBits
  split
  · exact length_moveFwd ..
  · exact length_moveBwd ..

theorem linOf_itInc {w : Nat} {it : BitIter} (hc : canon w it) (h : 0 ≤ toLin w it) :
    linOf w (itInc w it) = linOf w it + 1 := by
  unfold linOf
  rw [toLin_itInc hc]
  omega

theorem moveFwd_eq_copyFwd {w : Nat} (hw : 0 < w) (k : Nat) (c : List Nat)
    (s e d : BitIter) (hs : canon w s) (he : canon w e) (hd : canon w d)
    (hs0 : 0 ≤ toLin w s) (hd0 : 0 ≤ toLin w d)
    (hse : toLin w e = toLin w s + k) :
    moveFwd w k c s e d = copyFwd w k c (linOf w s) (linOf w d) := by
  induction k generalizing c s d with
  | zero => rfl
  | succ k ih =>
    have hne : s ≠ e := by
      intro hh
      rw [hh] at hse
      omega
    rw [moveFwd, if_neg hne, copyFwd]
    rw [writeIt_eq hw _ hd hd0, readIt_eq hw hs hs0]
    rw [ih _ (itInc w s) (itInc w d) (itInc_canon hs) (itInc_canon hd)
      (by rw [toLin_itInc hs]; omega) (by rw [toLin_itInc hd]; omega)
      (by rw [toLin_itInc hs]; omega)]
    rw [linOf_itInc hs hs0, linOf_itInc hd hd0]

theorem moveBwd_eq_copyBwd {w : Nat} (hw : 0 < w) (k : Nat) (c : List Nat)
    (s e d : BitIter) (di : Nat) (hs : canon w s) (he : canon w e) (hd : canon w d)
    (hs0 : 0 ≤ toLin w s)
    (hse : toLin w e = toLin w s + k)
    (hdi : toLin w d = di + k) :
    moveBwd w k c s e d = copyBwd w k c (linOf w s) di := by
  induction k generalizing c e d with
  | zero => rfl
  | succ k ih =>
    have hne : s ≠ e := by
      intro hh
      rw [hh] at hse
      omega
    have he' : canon w (itDec w e) := itDec_canon hw he
    have hd' : canon w (itDec w d) := itDec_canon hw hd
    have hle : toLin w (itDec w e) = toLin w s + k := by rw [toLin_itDec hw he]; omega
    have hld : toLin w (itDec w d) = di + k := by rw [toLin_itDec hw hd]; omega
    have hlinE : linOf w (itDec w e) = linOf w s + k := by
      unfold linOf
      rw [hle]
      omega
    have hlinD : linOf w (itDec w d) = di + k := by
      unfold linOf
      rw [hld]
      omega
    rw [moveBwd, if_neg hne, copyBwd]
    rw [writeIt_eq hw _ hd' (by omega), readIt_eq hw he' (by omega), hlinD, hlinE,
      ih _ (itDec w e) (itDec w d) he' hd' hle hld]

theorem MoveBits_get {w : Nat} (hw : 0 < w) {c : List Nat} {s e d : BitIter}
    (hs : canon w s) (he : canon w e) (hd : canon w d)
    (hs0 : 0 ≤ toLin w s) (hd0 : 0 ≤ toLin w d)
    (hse : toLin w s ≤ toLin w e)
    (hrange : linOf w d + (toLin w e - toLin w s).toNat ≤ c.length * w) (j : Nat) :
    cGet w (MoveBits w c s e d) j =
      if linOf w d ≤ j ∧ j < linOf w d + (toLin w e - toLin w s).toNat
      then cGet w c (linOf w s + (j - linOf w d)) else cGet w c j := by
  set k := (toLin w e - toLin w s).toNat with hk
  have hke : toLin w e = toLin w s + k := by omega
  unfold MoveBits
  rw [show (itSub w e s).toNat = k from by rw [itSub_eq]]
  by_cases hle : itLe d s
  · rw [if_pos hle]
    rw [moveFwd_eq_copyFwd hw k c s e d hs he hd hs0 hd0 hke]
    have hord : linOf w d ≤ linOf w s := by
      have := (itLe_iff hd hs).mp hle
      unfold linOf
      omega
    exact copyFwd_get hw k c _ _ hord hrange j
  · rw [if_neg hle]
    have hds : toLin w s < toLin w d := by
      by_contra hcon
      push_neg at hcon
      exact hle ((itLe_iff hd hs).mpr hcon)
    have htop : toLin w (itAdd w d (itSub w e s)) = (linOf w d : Int) + k := by
      rw [toLin_itAdd hw, itSub_eq]
      have := toLin_eq_linOf hd0
      omega
    rw [moveBwd_eq_copyBwd hw k c s e _ (linOf w d) hs he (itAdd_canon hw d _) hs0 hke htop]
    have hord : linOf w s ≤ linOf w d := by
      unfold linOf
      omega
    exact copyBwd_get hw k c _ _ hord hrange j

/-! ## The bitvector container

`bitvector<Allocator, Element, Container>` owns a container of words and a
count `mFreeBitCount` of unused bits in the last word.  The word store is an
`eastl::vector`, external to this repository; its operations are modelled
from the spec's Word Store interface.  Where the store produces words with
unspecified contents (`pushBack()` with no argument, growth in `resize(n)`),
the fresh word's value is the explicit `junk` parameter. -/

structure Bitvector where
  mContainer : List Nat
  mFreeBitCount : Nat
deriving DecidableEq, Repr

def size (w : Nat) (bv : Bitvector) : Nat :=
  bv.mContainer.length * w - bv.mFreeBitCount

/-- Source `empty()` is `mContainer.empty()`. -/
def isBvEmpty (bv : Bitvector) : Bool :=
  bv.mContainer.isEmpty

/-- Source `begin()` is `iterator(&mContainer[0], 0)`. -/
def beginIt : BitIter := ⟨0, 0⟩

/-- Source `end()` is `iterator(mContainer.end(), 0) - mFreeBitCount`. -/
def endIt (w : Nat) (bv : Bitvector) : BitIter :=
  itAdd w ⟨bv.mContainer.length, 0⟩ (-(bv.mFreeBitCount : Int))

/-- Source `pushBack()`: when no free bit remains, append one (unspecified) word and
set `mFreeBitCount = kBitCount`; then claim one free bit. -/
def pushBack (w : Nat) (junk : Nat) (bv : Bitvector) : Bitvector :=
  if bv.mFreeBitCount = 0 then ⟨bv.mContainer ++ [junk], w - 1⟩
  else ⟨bv.mContainer, bv.mFreeBitCount - 1⟩

/-- Source `pushBack(value)`: `pushBack(); *--end() = value;`. -/
def pushBackV (w : Nat) (junk : Nat) (bv : Bitvector) (value : Bool) : Bitvector :=
  let b := pushBack w junk bv
  ⟨writeIt w b.mContainer (itDec w (endIt w b)) value, b.mFreeBitCount⟩

/-- Source `popBack()`: free one bit; when the free count would reach `kBitCount`,
physically pop the last word and reset the count to 0. -/
def popBack (w : Nat) (bv : Bitvector) : Bitvector :=
  if bv.mFreeBitCount + 1 = w then ⟨bv.mContainer.dropLast, 0⟩
  else ⟨bv.mContainer, bv.mFreeBitCount + 1⟩

/-- Modelled from the spec: the Word Store's no-fill `resize` — the prefix is
kept, new words (if any) have unspecified contents, here `junk`. -/
def ctrResize (junk : Nat) (c : List Nat) (n : Nat) : List Nat :=
  if n ≤ c.length then c.take n else c ++ List.replicate (n - c.length) junk

/-- Modelled from the spec: the Word Store's fill `resize(n, element)` — the
prefix is kept, new words are copies of `element`. -/
def ctrResizeFill (c : List Nat) (n : Nat) (element : Nat) : List Nat :=
  if n ≤ c.length then c.take n else c ++ List.replicate (n - c.length) element

/-- Source `resize(n)`: no-fill resize to `wordCount = ceil(n / kBitCount)` words
and `mFreeBitCount = wordCount * kBitCount - n`. -/
def resize (w : Nat) (junk : Nat) (bv : Bitvector) (n : Nat) : Bitvector :=
  ⟨ctrResize junk bv.mContainer ((n + w - 1) / w), ((n + w - 1) / w) * w - n⟩

/-- The `while (mFreeBitCount && newbits) { pushBack(value); --newbits; }`
loop of `resize(n, value)`, with explicit fuel; `mFreeBitCount` strictly
decreases each iteration, so fuel `mFreeBitCount` is exact. -/
def fillLoop (w : Nat) (junk : Nat) (value : Bool) :
    Nat → Bitvector → Nat → Bitvector × Nat
  | 0, bv, newbits => (bv, newbits)
  | fuel + 1, bv, newbits =>
    if bv.mFreeBitCount ≠ 0 ∧ newbits ≠ 0 then
      fillLoop w junk value fuel (pushBackV w junk bv value) (newbits - 1)
    else (bv, newbits)

/-- The width of `size_type` (`eastl_size_t`): `newbits = n - s` wraps at
`2^64` when `n < s`. -/
def M64 : Nat := 2 ^ 64

/-- Source `size_type` subtraction `a - b` (machine wraparound). -/
def usub (a b : Nat) : Nat := (a + (M64 - b % M64)) % M64

/-- The tail of `resize(n, value)` after the single-bit loop: when `newbits`
(the loop's residue, `res.2`) is nonzero, fill the rest a word at a time with
`element = 0` or `~element_type(0) = 2^w - 1` and set `mFreeBitCount`;
otherwise the loop's state `res.1` is the result. -/
def resizeFillTail (w : Nat) (n : Nat) (value : Bool) (res : Bitvector × Nat) : Bitvector :=
  if res.2 ≠ 0 then
    ⟨ctrResizeFill res.1.mContainer ((n + w - 1) / w) (if value then (1 <<< w) - 1 else 0),
      ((n + w - 1) / w) * w - n⟩
  else res.1

/-- Source `resize(n, value)`: with `s = size()`, shrink with the no-fill `resize(n)`
when `n < s`, compute `newbits = n - s` in `size_type` arithmetic, push single
bits while free bits remain (`fillLoop`), then `resizeFillTail`. -/
def resizeFill (w : Nat) (junk : Nat) (bv : Bitvector) (n : Nat) (value : Bool) : Bitvector :=
  resizeFillTail w n value
    (fillLoop w junk value (if n < size w bv then resize w junk bv n else bv).mFreeBitCount
      (if n < size w bv then resize w junk bv n else bv) (usub n (size w bv)))

/-- Source `test(n, defaultValue)`: the bit at `n` when `n < size()`, read through
`*(begin() + n)`, otherwise `defaultValue`. -/
def test (w : Nat) (bv : Bitvector) (n : Nat) (defaultValue : Bool) : Bool :=
  if n < size w bv then readIt bv.mContainer (itAdd w beginIt (n : Int))
  else defaultValue

/-- Source `set(n, value)`: grow via the no-fill `resize(n + 1)` when `n >= size()`,
then write through `*(begin() + n) = value`. -/
def setBitv (w : Nat) (junk : Nat) (bv : Bitvector) (n : Nat) (value : Bool) : Bitvector :=
  let bv1 := if size w bv ≤ n then resize w junk bv (n + 1) else bv
  ⟨writeIt w bv1.mContainer (itAdd w beginIt (n : Int)) value, bv1.mFreeBitCount⟩

/-- Source `at(n)` (const): throws `std::out_of_range` when `n >= size()`, otherwise
reads `*(begin() + n)`.  The thrown exception is the `Except.error` case. -/
def atBitv (w : Nat) (bv : Bitvector) (n : Nat) : Except String Bool :=
  if size w bv ≤ n then .error "bitvector::at -- out of range"
  else .ok (readIt bv.mContainer (itAdd w beginIt (n : Int)))

/-- Source `insert(position, value)`: save `n = position - begin()`, `pushBack()`,
recompute `position = begin() + n`, shift `[position, --end())` up by one
with `MoveBits(position, --end(), ++iterator(position))`, write `value`, and
return the recomputed `position`. -/
def insert (w : Nat) (junk : Nat) (bv : Bitvector) (position : BitIter) (value : Bool) :
    Bitvector × BitIter :=
  let n := itSub w position beginIt
  let bv1 := pushBack w junk bv
  let pos1 := itAdd w beginIt n
  let c2 := MoveBits w bv1.mContainer pos1 (itDec w (endIt w bv1)) (itInc w pos1)
  (⟨writeIt w c2 pos1 value, bv1.mFreeBitCount⟩, pos1)

/-- Source `erase(first, last)`: when the range is nonempty, shift `[last, end())`
down to `first` with `MoveBits(last, end(), first)`, then `resize(size() -
eraseCount)`; returns `first`. -/
def eraseRange (w : Nat) (junk : Nat) (bv : Bitvector) (first last : BitIter) :
    Bitvector × BitIter :=
  if first = last then (bv, first)
  else
    let eraseCount := (itSub w last first).toNat
    let c2 := MoveBits w bv.mContainer last (endIt w bv) first
    (resize w junk ⟨c2, bv.mFreeBitCount⟩ (size w ⟨c2, bv.mFreeBitCount⟩ - eraseCount), first)

/-- Source `clear()`: `mContainer.clear(); mFreeBitCount = 0;`. -/
def clear (bv : Bitvector) : Bitvector :=
  ⟨[], 0⟩

/-- Source `resetLoseMemory()`: reset bookkeeping to empty without releasing the
word storage (the deliberate leak). -/
def resetLoseMemory (bv : Bitvector) : Bitvector :=
  ⟨[], 0⟩

/-- Source `bitvector()`. -/
def mkBitvector : Bitvector := ⟨[], 0⟩

/-- Source `bitvector(n)`: `mContainer((n + kBitCount - 1) / kBitCount)` (word
contents unspecified, modelled as `junk`); `mFreeBitCount = kBitCount -
n % kBitCount`, reset to 0 when that equals `kBitCount`. -/
def mkSized (w : Nat) (junk : Nat) (n : Nat) : Bitvector :=
  ⟨List.replicate ((n + w - 1) / w) junk,
    if w - n % w = w then 0 else w - n % w⟩

/-- Source `bitvector(n, value)`: words pre-filled with `0` or `~element_type(0)`. -/
def mkSizedFill (w : Nat) (n : Nat) (value : Bool) : Bitvector :=
  ⟨List.replicate ((n + w - 1) / w) (if value then (1 <<< w) - 1 else 0),
    if w - n % w = w then 0 else w - n % w⟩

/-! ## Iterator validation

`bitvector_const_iterator::validate(pStart, pEnd, nExtraBits)`.  The flag
values are `eastl::isf_none/isf_valid/isf_current/isf_can_dereference` from
the library's iterator header.  The branch for `nExtraBits == 0 &&
pCurrent == pEnd` evaluates `mReference` — an implicit conversion to `bool`
that reads bit `mnBitIndex` of the word at `pCurrent`, which for the end
position lies one past the container — so the classification depends on the
raw word memory `mem`, not only on the iterator's coordinates. -/

def isfNone : Nat := 0
def isfValid : Nat := 1
def isfCurrent : Nat := 2
def isfCanDereference : Nat := 4

def validate (w : Nat) (mem : Int → Nat) (it : BitIter)
    (pStart pEnd : Int) (nExtraBits : Nat) : Nat :=
  if pStart ≤ it.word then
    if nExtraBits = 0 then
      if it.word = pEnd ∧ (mem it.word).testBit it.bit then isfValid ||| isfCurrent
      else if it.word < pEnd then isfValid ||| isfCurrent ||| isfCanDereference
      else isfNone
    else if it.word = pEnd - 1 then
      if it.bit = w - nExtraBits then isfValid ||| isfCurrent
      else if it.bit < w - nExtraBits then isfValid ||| isfCurrent ||| isfCanDereference
      else isfNone
    else if it.word < pEnd then isfValid ||| isfCurrent ||| isfCanDereference
    else isfNone
  else isfNone

/-- Source `validateIterator(i)`: `i.validate(mContainer.begin(), mContainer.end(),
mFreeBitCount)`. -/
def validateIterator (w : Nat) (mem : Int → Nat) (bv : Bitvector) (i : BitIter) : Nat :=
  validate w mem i 0 bv.mContainer.length bv.mFreeBitCount

/-! ## Comparison operators

`operator==` is `a.size() == b.size() && equal(a.begin(), a.end(),
b.begin())`; `operator<` is `lexicographical_compare(a.begin(), a.end(),
b.begin(), b.end())`.  The two algorithms are external to this repository. -/

/-- The bit at linear index `i`, as the container reads it (`*(begin()+i)`). -/
def bvGet (w : Nat) (bv : Bitvector) (i : Nat) : Bool :=
  cGet w bv.mContainer i

/-- Modelled from the spec: `eastl::equal` over the ranges `[a.begin(),
a.end())` and `[b.begin(), ...)` — element-wise equality. -/
def rangeEqual (w : Nat) (a b : Bitvector) : Bool :=
  (List.range (size w a)).all (fun i => bvGet w a i == bvGet w b i)

def bvEq (w : Nat) (a b : Bitvector) : Bool :=
  size w a == size w b && rangeEqual w a b

/-- The boolean sequence a bitvector denotes. -/
def toBits (w : Nat) (bv : Bitvector) : List Bool :=
  (List.range (size w bv)).map (bvGet w bv)

/-- Modelled from the spec: `eastl::lexicographical_compare` on boolean
sequences — first mismatch decides (`false < true`), a proper prefix is
smaller. -/
def lexLt : List Bool → List Bool → Bool
  | _, [] => false
  | [], _ :: _ => true
  | a :: as, b :: bs => (!a && b) || (a == b && lexLt as bs)

def bvLt (w : Nat) (a b : Bitvector) : Bool :=
  lexLt (toBits w a) (toBits w b)

/-! ## The bookkeeping invariant -/

/-- The container invariant: `mFreeBitCount < kBitCount`, and an empty word
container carries no free bits. -/
def Inv (w : Nat) (bv : Bitvector) : Prop :=
  bv.mFreeBitCount < w ∧ (bv.mContainer = [] → bv.mFreeBitCount = 0)

theorem ceil_facts {w : Nat} (hw : 0 < w) (n : Nat) :
    n ≤ ((n + w - 1) / w) * w ∧ ((n + w - 1) / w) * w - n < w ∧
      (((n + w - 1) / w) = 0 ↔ n = 0) := by
  have h := Nat.div_add_mod (n + w - 1) w
  have hr : (n + w - 1) % w < w := Nat.mod_lt _ hw
  rw [Nat.mul_comm] at h
  set q := (n + w - 1) / w with hq
  set r := (n + w - 1) % w with hr2
  set t := q * w with ht
  constructor
  · omega
  constructor
  · omega
  · constructor
    · intro h0
      rw [h0] at ht
      simp at ht
      omega
    · intro h0
      subst h0
      have : w - 1 < w := by omega
      rw [hq]
      simp only [Nat.zero_add]
      exact Nat.div_eq_of_lt this

theorem free_le_of_inv {w : Nat} {bv : Bitvector} (h : Inv w bv) :
    bv.mFreeBitCount ≤ bv.mContainer.length * w := by
  rcases h with ⟨h1, h2⟩
  by_cases hc : bv.mContainer = []
  · rw [h2 hc]
    exact Nat.zero_le _
  · have hlen : 0 < bv.mContainer.length := List.length_pos.mpr hc
    have hle : w ≤ bv.mContainer.length * w := Nat.le_mul_of_pos_left w hlen
    omega

theorem size_add_free {w : Nat} {bv : Bitvector} (h : Inv w bv) :
    size w bv + bv.mFreeBitCount = bv.mContainer.length * w := by
  have := free_le_of_inv h
  unfold size
  omega

/-! ### `begin` / `end` -/

theorem beginIt_canon {w : Nat} (hw : 0 < w) : canon w beginIt := hw

theorem toLin_beginIt (w : Nat) : toLin w beginIt = 0 := by
  unfold toLin beginIt
  simp

theorem endIt_canon {w : Nat} (hw : 0 < w) (bv : Bitvector) : canon w (endIt w bv) :=
  itAdd_canon hw _ _

theorem toLin_endIt {w : Nat} (hw : 0 < w) {bv : Bitvector} (h : Inv w bv) :
    toLin w (endIt w bv) = (size w bv : Int) := by
  unfold endIt
  rw [toLin_itAdd hw]
  unfold toLin
  have h1 := free_le_of_inv h
  unfold size
  simp only
  push_cast [Nat.cast_sub h1]
  push_cast
  ring

/-- The canonical iterator at linear position `p`: `begin() + p`. -/
def iterAt (w : Nat) (p : Nat) : BitIter := itAdd w beginIt (p : Int)

theorem iterAt_canon {w : Nat} (hw : 0 < w) (p : Nat) : canon w (iterAt w p) :=
  itAdd_canon hw _ _

theorem toLin_iterAt {w : Nat} (hw : 0 < w) (p : Nat) :
    toLin w (iterAt w p) = (p : Int) := by
  unfold iterAt
  rw [toLin_itAdd hw, toLin_beginIt]
  ring

theorem linOf_iterAt {w : Nat} (hw : 0 < w) (p : Nat) : linOf w (iterAt w p) = p := by
  unfold linOf
  rw [toLin_iterAt hw]
  exact Int.toNat_natCast p

/-- Reading through `*(begin() + n)` is `bvGet` at linear index `n`. -/
theorem readIt_iterAt {w : Nat} (hw : 0 < w) (bv : Bitvector) (n : Nat) :
    readIt bv.mContainer (itAdd w beginIt (n : Int)) = bvGet w bv n := by
  have h1 : readIt bv.mContainer (iterAt w n) = cGet w bv.mContainer (linOf w (iterAt w n)) :=
    readIt_eq hw (iterAt_canon hw n) (by rw [toLin_iterAt hw]; positivity)
  rw [show itAdd w beginIt (n : Int) = iterAt w n from rfl, h1, linOf_iterAt hw]
  rfl

/-- Writing through `*(begin() + n) = value` is `cSet` at linear index `n`. -/
theorem writeIt_iterAt {w : Nat} (hw : 0 < w) (c : List Nat) (n : Nat) (b : Bool) :
    writeIt w c (itAdd w beginIt (n : Int)) b = cSet w c n b := by
  have h1 : writeIt w c (iterAt w n) b = cSet w c (linOf w (iterAt w n)) b :=
    writeIt_eq hw b (iterAt_canon hw n) (by rw [toLin_iterAt hw]; positivity)
  rw [show itAdd w beginIt (n : Int) = iterAt w n from rfl, h1, linOf_iterAt hw]

/-! ### `pushBack` -/

theorem length_pushBack (w junk : Nat) (bv : Bitvector) :
    (pushBack w junk bv).mContainer.length =
      if bv.mFreeBitCount = 0 then bv.mContainer.length + 1 else bv.mContainer.length := by
  unfold pushBack
  split <;> simp_all

theorem pushBack_inv {w : Nat} (hw : 0 < w) (junk : Nat) {bv : Bitvector} (h : Inv w bv) :
    Inv w (pushBack w junk bv) := by
  unfold pushBack Inv at *
  split
  · simp
    omega
  · constructor
    · simp
      omega
    · intro hc
      simp at hc
      rcases h with ⟨h1, h2⟩
      have := h2 hc
      omega

theorem size_pushBack {w : Nat} (hw : 0 < w) (junk : Nat) {bv : Bitvector} (h : Inv w bv) :
    size w (pushBack w junk bv) = size w bv + 1 := by
  have hfl := free_le_of_inv h
  unfold pushBack size Inv at *
  split
  · rename_i h0
    simp only [List.length_append, List.length_singleton]
    rw [Nat.add_mul, Nat.one_mul]
    omega
  · simp only
    omega

theorem bvGet_pushBack {w : Nat} (hw : 0 < w) {junk : Nat} {bv : Bitvector} (h : Inv w bv)
    {j : Nat} (hj : j < bv.mContainer.length * w) :
    bvGet w (pushBack w junk bv) j = bvGet w bv j := by
  unfold pushBack bvGet
  split
  · exact cGet_append_left hw hj
  · rfl

/-! ### `pushBack(value)` -/

theorem pushBackV_eq {w : Nat} (hw : 0 < w) {junk : Nat} {bv : Bitvector} (h : Inv w bv)
    (value : Bool) :
    pushBackV w junk bv value =
      ⟨cSet w (pushBack w junk bv).mContainer (size w bv) value,
        (pushBack w junk bv).mFreeBitCount⟩ := by
  have hinv1 := pushBack_inv hw junk h
  have hsz1 := size_pushBack hw junk h
  unfold pushBackV
  simp only
  congr 1
  have hend : toLin w (endIt w (pushBack w junk bv)) = ((size w bv : Int) + 1) := by
    rw [toLin_endIt hw hinv1, hsz1]
    push_cast
    ring
  have hdec : toLin w (itDec w (endIt w (pushBack w junk bv))) = (size w bv : Int) := by
    rw [toLin_itDec hw (endIt_canon hw _), hend]
    ring
  rw [writeIt_eq hw value (itDec_canon hw (endIt_canon hw _)) (by rw [hdec]; positivity)]
  congr 1
  unfold linOf
  rw [hdec]
  exact Int.toNat_natCast _

theorem pushBackV_inv {w : Nat} (hw : 0 < w) (junk : Nat) {bv : Bitvector} (h : Inv w bv)
    (value : Bool) : Inv w (pushBackV w junk bv value) := by
  rw [pushBackV_eq hw h]
  have h1 := pushBack_inv hw junk h
  unfold Inv at *
  unfold cSet
  constructor
  · exact h1.1
  · intro hc
    simp at hc
    exact h1.2 hc

theorem size_pushBackV {w : Nat} (hw : 0 < w) (junk : Nat) {bv : Bitvector} (h : Inv w bv)
    (value : Bool) : size w (pushBackV w junk bv value) = size w bv + 1 := by
  rw [pushBackV_eq hw h]
  unfold size cSet
  simp only [List.length_set]
  exact size_pushBack hw junk h

theorem length_pushBackV (w junk : Nat) (bv : Bitvector) (value : Bool) :
    (pushBackV w junk bv value).mContainer.length =
      (pushBack w junk bv).mContainer.length := by
  unfold pushBackV
  simp only
  rw [length_writeIt]

theorem bvGet_pushBackV_new {w : Nat} (hw : 0 < w) {junk : Nat} {bv : Bitvector}
    (h : Inv w bv) (value : Bool) :
    bvGet w (pushBackV w junk bv value) (size w bv) = value := by
  rw [pushBackV_eq hw h]
  unfold bvGet
  simp only
  apply cGet_cSet_self hw
  apply Nat.div_lt_of_lt_mul
  rw [Nat.mul_comm]
  have h1 := size_add_free (pushBack_inv hw junk h)
  have h2 := size_pushBack hw junk h
  omega

theorem bvGet_pushBackV_old {w : Nat} (hw : 0 < w) {junk : Nat} {bv : Bitvector}
    (h : Inv w bv) (value : Bool) {j : Nat} (hj : j < size w bv) :
    bvGet w (pushBackV w junk bv value) j = bvGet w bv j := by
  rw [pushBackV_eq hw h]
  unfold bvGet
  simp only
  rw [cGet_cSet_ne hw _ (by omega)]
  have hfl := free_le_of_inv h
  exact bvGet_pushBack hw h (by unfold size at hj; omega)

/-! ### `resize` -/

theorem length_resize (w junk : Nat) (bv : Bitvector) (n : Nat) :
    (resize w junk bv n).mContainer.length = (n + w - 1) / w := by
  unfold resize ctrResize
  split
  · rename_i hle
    simp [List.length_take]
    omega
  · rename_i hgt
    simp [List.length_replicate]
    omega

theorem free_resize (w junk : Nat) (bv : Bitvector) (n : Nat) :
    (resize w junk bv n).mFreeBitCount = ((n + w - 1) / w) * w - n := rfl

theorem resize_inv {w : Nat} (hw : 0 < w) (junk : Nat) (bv : Bitvector) (n : Nat) :
    Inv w (resize w junk bv n) := by
  obtain ⟨hc1, hc2, hc3⟩ := ceil_facts hw n
  constructor
  · rw [free_resize]
    omega
  · intro hc
    have hlen : (resize w junk bv n).mContainer.length = 0 := by rw [hc]; rfl
    rw [length_resize] at hlen
    rw [free_resize, hlen]
    simp

theorem size_resize {w : Nat} (hw : 0 < w) (junk : Nat) (bv : Bitvector) (n : Nat) :
    size w (resize w junk bv n) = n := by
  obtain ⟨hc1, hc2, hc3⟩ := ceil_facts hw n
  unfold size
  rw [length_resize, free_resize]
  omega

theorem bvGet_resize {w : Nat} (hw : 0 < w) (junk : Nat) {bv : Bitvector} {n j : Nat}
    (hj1 : j < n) (hj2 : j < bv.mContainer.length * w) :
    bvGet w (resize w junk bv n) j = bvGet w bv j := by
  obtain ⟨hc1, _, _⟩ := ceil_facts hw n
  unfold bvGet resize ctrResize
  simp only
  split
  · exact cGet_take hw (by omega)
  · exact cGet_append_left hw hj2

/-! ### `popBack` -/

theorem popBack_inv {w : Nat} (hw : 0 < w) {bv : Bitvector} (h : Inv w bv)
    (hne : bv.mContainer ≠ []) : Inv w (popBack w bv) := by
  unfold popBack Inv at *
  split
  · exact ⟨hw, fun _ => rfl⟩
  · refine ⟨by dsimp only; omega, ?_⟩
    intro hc
    dsimp only at hc
    exact absurd hc hne

theorem size_popBack {w : Nat} (hw : 0 < w) {bv : Bitvector} (h : Inv w bv)
    (hne : bv.mContainer ≠ []) : size w (popBack w bv) = size w bv - 1 := by
  have hfl := free_le_of_inv h
  have hlen : 0 < bv.mContainer.length := List.length_pos.mpr hne
  have hwle : w ≤ bv.mContainer.length * w := Nat.le_mul_of_pos_left w hlen
  unfold popBack size at *
  split
  · dsimp only
    rw [List.length_dropLast]
    have hsub : (bv.mContainer.length - 1) * w = bv.mContainer.length * w - w := by
      rw [Nat.sub_mul, Nat.one_mul]
    omega
  · dsimp only
    omega

/-! ### `resize(n, value)` -/

theorem M64_eq : M64 = 18446744073709551616 := by norm_num [M64]

theorem usub_of_le {n s : Nat} (h1 : s ≤ n) (h2 : n < M64) : usub n s = n - s := by
  unfold usub
  rw [M64_eq] at *
  omega

theorem usub_of_gt {n s : Nat} (h1 : n < s) (h2 : s < M64) : usub n s = M64 - (s - n) := by
  unfold usub
  rw [M64_eq] at *
  omega

theorem fillLoop_spec {w : Nat} (hw : 0 < w) (junk : Nat) (value : Bool) :
    ∀ (fuel : Nat) (bv : Bitvector) (newbits : Nat), Inv w bv →
      bv.mFreeBitCount ≤ fuel →
      (fillLoop w junk value fuel bv newbits).1.mContainer.length = bv.mContainer.length ∧
      (fillLoop w junk value fuel bv newbits).1.mFreeBitCount
        = bv.mFreeBitCount - min bv.mFreeBitCount newbits ∧
      (fillLoop w junk value fuel bv newbits).2 = newbits - min bv.mFreeBitCount newbits ∧
      Inv w (fillLoop w junk value fuel bv newbits).1 ∧
      size w (fillLoop w junk value fuel bv newbits).1
        = size w bv + min bv.mFreeBitCount newbits ∧
      (∀ j, j < size w bv →
        bvGet w (fillLoop w junk value fuel bv newbits).1 j = bvGet w bv j) ∧
      (∀ j, size w bv ≤ j → j < size w bv + min bv.mFreeBitCount newbits →
        bvGet w (fillLoop w junk value fuel bv newbits).1 j = value) := by
  intro fuel
  induction fuel with
  | zero =>
    intro bv newbits hinv hle
    have h0 : bv.mFreeBitCount = 0 := by omega
    refine ⟨rfl, ?_, ?_, hinv, ?_, fun j hj => rfl, fun j hj1 hj2 => absurd hj2 (by omega)⟩
    · show bv.mFreeBitCount = bv.mFreeBitCount - min bv.mFreeBitCount newbits
      omega
    · show newbits = newbits - min bv.mFreeBitCount newbits
      omega
    · show size w bv = size w bv + min bv.mFreeBitCount newbits
      omega
  | succ fuel ih =>
    intro bv newbits hinv hle
    rw [fillLoop]
    by_cases hcond : bv.mFreeBitCount ≠ 0 ∧ newbits ≠ 0
    · rw [if_pos hcond]
      have hpinv := pushBackV_inv hw junk hinv value
      have hplen : (pushBackV w junk bv value).mContainer.length = bv.mContainer.length := by
        rw [length_pushBackV, length_pushBack, if_neg hcond.1]
      have hpfree : (pushBackV w junk bv value).mFreeBitCount = bv.mFreeBitCount - 1 := by
        rw [pushBackV_eq hw hinv]
        dsimp only
        unfold pushBack
        rw [if_neg hcond.1]
      have hpsize := size_pushBackV hw junk hinv value
      obtain ⟨ih1, ih2, ih3, ih4, ih5, ih6, ih7⟩ :=
        ih (pushBackV w junk bv value) (newbits - 1) hpinv (by omega)
      have hmin : min (pushBackV w junk bv value).mFreeBitCount (newbits - 1)
          = min bv.mFreeBitCount newbits - 1 := by
        rw [hpfree]
        omega
      refine ⟨?_, ?_, ?_, ih4, ?_, ?_, ?_⟩
      · rw [ih1, hplen]
      · rw [ih2, hmin, hpfree]
        omega
      · rw [ih3, hmin]
        omega
      · rw [ih5, hmin, hpsize]
        omega
      · intro j hj
        rw [ih6 j (by omega), bvGet_pushBackV_old hw hinv value hj]
      · intro j hj1 hj2
        by_cases hje : j = size w bv
        · subst hje
          rw [ih6 _ (by omega), bvGet_pushBackV_new hw hinv value]
        · apply ih7 j (by omega)
          rw [hpsize]
          omega
    · rw [if_neg hcond]
      have hmin : min bv.mFreeBitCount newbits = 0 := by omega
      refine ⟨rfl, ?_, ?_, hinv, ?_, fun j hj => rfl, fun j hj1 hj2 => absurd hj2 (by omega)⟩
      · show bv.mFreeBitCount = bv.mFreeBitCount - min bv.mFreeBitCount newbits
        omega
      · show newbits = newbits - min bv.mFreeBitCount newbits
        omega
      · show size w bv = size w bv + min bv.mFreeBitCount newbits
        omega

theorem length_ctrResizeFill (c : List Nat) (n e : Nat) :
    (ctrResizeFill c n e).length = n := by
  unfold ctrResizeFill
  split
  · rename_i hle
    simp [List.length_take]
    omega
  · rename_i hgt
    simp [List.length_replicate]
    omega

theorem resizeFillTail_inv {w : Nat} (hw : 0 < w) {n : Nat} {value : Bool}
    {res : Bitvector × Nat} (h : Inv w res.1) : Inv w (resizeFillTail w n value res) := by
  unfold resizeFillTail
  by_cases hres : res.2 ≠ 0
  · rw [if_pos hres]
    obtain ⟨hc1, hc2, hc3⟩ := ceil_facts hw n
    refine ⟨by dsimp only; omega, ?_⟩
    intro hc
    dsimp only at hc ⊢
    have hl := length_ctrResizeFill res.1.mContainer ((n + w - 1) / w)
      (if value then (1 <<< w) - 1 else 0)
    rw [hc] at hl
    have hlen0 : (n + w - 1) / w = 0 := by simpa using hl.symm
    have hn := hc3.mp hlen0
    rw [hlen0]
    omega
  · rw [if_neg hres]
    exact h

theorem resizeFill_inv {w : Nat} (hw : 0 < w) (junk : Nat) {bv : Bitvector}
    (h : Inv w bv) (n : Nat) (value : Bool) : Inv w (resizeFill w junk bv n value) := by
  unfold resizeFill
  have hinv1 : Inv w (if n < size w bv then resize w junk bv n else bv) := by
    split
    · exact resize_inv hw junk bv n
    · exact h
  exact resizeFillTail_inv hw
    (fillLoop_spec hw junk value _ _ (usub n (size w bv)) hinv1 le_rfl).2.2.2.1

/-! ### `insert` and `erase` -/

theorem inv_write {w : Nat} {c : List Nat} {f : Nat} (h : Inv w (⟨c, f⟩ : Bitvector))
    (it : BitIter) (b : Bool) : Inv w (⟨writeIt w c it b, f⟩ : Bitvector) := by
  refine ⟨h.1, fun hc => h.2 ?_⟩
  have hlen := length_writeIt w c it b
  dsimp only at hc
  rw [hc] at hlen
  exact List.length_eq_zero.mp hlen.symm

theorem size_lt_mul {w : Nat} {bv : Bitvector} (h : Inv w bv) :
    size w bv ≤ bv.mContainer.length * w := by
  have := free_le_of_inv h
  unfold size
  omega

theorem insert_spec {w : Nat} (hw : 0 < w) (junk : Nat) {bv : Bitvector} (h : Inv w bv)
    {p : Nat} (hp : p ≤ size w bv) (value : Bool) :
    size w (insert w junk bv (iterAt w p) value).1 = size w bv + 1 ∧
    Inv w (insert w junk bv (iterAt w p) value).1 ∧
    (insert w junk bv (iterAt w p) value).2 = iterAt w p ∧
    bvGet w (insert w junk bv (iterAt w p) value).1 p = value ∧
    (∀ j, j < p → bvGet w (insert w junk bv (iterAt w p) value).1 j = bvGet w bv j) ∧
    (∀ i, p ≤ i → i < size w bv →
      bvGet w (insert w junk bv (iterAt w p) value).1 (i + 1) = bvGet w bv i) := by
  have hn : itSub w (iterAt w p) beginIt = (p : Int) := by
    rw [itSub_eq, toLin_iterAt hw, toLin_beginIt]
    ring
  have hinv1 : Inv w (pushBack w junk bv) := pushBack_inv hw junk h
  have hsz1 : size w (pushBack w junk bv) = size w bv + 1 := size_pushBack hw junk h
  have hszf1 := size_add_free hinv1
  have hpc : canon w (iterAt w p) := iterAt_canon hw p
  have hpl : toLin w (iterAt w p) = (p : Int) := toLin_iterAt hw p
  have hec : canon w (itDec w (endIt w (pushBack w junk bv))) :=
    itDec_canon hw (endIt_canon hw _)
  have hel : toLin w (itDec w (endIt w (pushBack w junk bv))) = (size w bv : Int) := by
    rw [toLin_itDec hw (endIt_canon hw _), toLin_endIt hw hinv1, hsz1]
    push_cast
    ring
  have hdc : canon w (itInc w (iterAt w p)) := itInc_canon hpc
  have hdl : toLin w (itInc w (iterAt w p)) = ((p : Int) + 1) := by
    rw [toLin_itInc hpc, hpl]
  have hk : (toLin w (itDec w (endIt w (pushBack w junk bv))) - toLin w (iterAt w p)).toNat
      = size w bv - p := by
    rw [hel, hpl]
    omega
  have hld : linOf w (itInc w (iterAt w p)) = p + 1 := by
    unfold linOf
    rw [hdl]
    omega
  have hls : linOf w (iterAt w p) = p := linOf_iterAt hw p
  have hrange : linOf w (itInc w (iterAt w p))
      + (toLin w (itDec w (endIt w (pushBack w junk bv))) - toLin w (iterAt w p)).toNat
      ≤ (pushBack w junk bv).mContainer.length * w := by
    rw [hld, hk]
    omega
  have hmove := fun j => MoveBits_get hw (c := (pushBack w junk bv).mContainer)
    hpc hec hdc (by rw [hpl]; positivity) (by rw [hdl]; positivity)
    (by rw [hpl, hel]; exact_mod_cast hp) hrange j
  simp only [hld, hk, hls] at hmove
  -- hmove : cGet (MoveBits c1 pos eIt dIt) j = if p+1 ≤ j ∧ j < p+1+(s-p) then cGet c1 (p + (j - (p+1))) else cGet c1 j
  have hlenmove := length_MoveBits w (pushBack w junk bv).mContainer (iterAt w p)
    (itDec w (endIt w (pushBack w junk bv))) (itInc w (iterAt w p))
  simp only [insert, iterAt] at *
  rw [hn]
  constructor
  · -- size
    unfold size at *
    rw [length_writeIt, hlenmove]
    exact hsz1
  constructor
  · -- invariant
    apply inv_write
    refine ⟨hinv1.1, fun hc => hinv1.2 ?_⟩
    dsimp only at hc
    rw [hc] at hlenmove
    exact List.length_eq_zero.mp hlenmove.symm
  constructor
  · rfl
  have hwrite := writeIt_iterAt hw (MoveBits w (pushBack w junk bv).mContainer
    (itAdd w beginIt (p : Int)) (itDec w (endIt w (pushBack w junk bv)))
    (itInc w (itAdd w beginIt (p : Int)))) p value
  constructor
  · -- bit p = value
    show cGet w _ p = value
    rw [hwrite]
    apply cGet_cSet_self hw
    apply Nat.div_lt_of_lt_mul
    rw [Nat.mul_comm, length_MoveBits]
    omega
  constructor
  · -- bits below p unchanged
    intro j hj
    show cGet w _ j = bvGet w bv j
    rw [hwrite, cGet_cSet_ne hw _ (by omega), hmove j, if_neg (by omega)]
    exact bvGet_pushBack hw h (by have := size_lt_mul h; omega)
  · -- former bits at `≥ p` shifted up one
    intro i hip his
    show cGet w _ (i + 1) = bvGet w bv i
    rw [hwrite, cGet_cSet_ne hw _ (by omega), hmove (i + 1), if_pos (by omega)]
    have harg : p + (i + 1 - (p + 1)) = i := by omega
    rw [harg]
    exact bvGet_pushBack hw h (by have := size_lt_mul h; omega)

theorem eraseRange_spec {w : Nat} (hw : 0 < w) (junk : Nat) {bv : Bitvector} (h : Inv w bv)
    {a b : Nat} (hab : a ≤ b) (hb : b ≤ size w bv) :
    size w (eraseRange w junk bv (iterAt w a) (iterAt w b)).1 = size w bv - (b - a) ∧
    Inv w (eraseRange w junk bv (iterAt w a) (iterAt w b)).1 ∧
    (eraseRange w junk bv (iterAt w a) (iterAt w b)).2 = iterAt w a ∧
    (∀ j, j < a → bvGet w (eraseRange w junk bv (iterAt w a) (iterAt w b)).1 j = bvGet w bv j) ∧
    (∀ i, b ≤ i → i < size w bv →
      bvGet w (eraseRange w junk bv (iterAt w a) (iterAt w b)).1 (i - (b - a))
        = bvGet w bv i) := by
  by_cases heq : a = b
  · subst heq
    unfold eraseRange
    rw [if_pos rfl]
    refine ⟨by dsimp only; omega, h, rfl, fun j hj => rfl, fun i hbi his => ?_⟩
    have hii : i - (a - a) = i := by omega
    dsimp only
    rw [hii]
  · have hlt : a < b := by omega
    have hne : iterAt w a ≠ iterAt w b := by
      intro hc
      have hcl := congrArg (toLin w) hc
      rw [toLin_iterAt hw, toLin_iterAt hw] at hcl
      omega
    simp only [eraseRange, if_neg hne]
    have hcount : (itSub w (iterAt w b) (iterAt w a)).toNat = b - a := by
      rw [itSub_eq, toLin_iterAt hw, toLin_iterAt hw]
      omega
    have hac : canon w (iterAt w a) := iterAt_canon hw a
    have hbc : canon w (iterAt w b) := iterAt_canon hw b
    have hecan : canon w (endIt w bv) := endIt_canon hw bv
    have hbl := toLin_iterAt hw b
    have hal := toLin_iterAt hw a
    have helin := toLin_endIt hw h
    have hsfree := size_lt_mul h
    have hk : (toLin w (endIt w bv) - toLin w (iterAt w b)).toNat = size w bv - b := by
      rw [helin, hbl]
      omega
    have hla : linOf w (iterAt w a) = a := linOf_iterAt hw a
    have hlb : linOf w (iterAt w b) = b := linOf_iterAt hw b
    have hrange : linOf w (iterAt w a) + (toLin w (endIt w bv) - toLin w (iterAt w b)).toNat
        ≤ bv.mContainer.length * w := by
      rw [hla, hk]
      omega
    have hmove := fun j => MoveBits_get hw (c := bv.mContainer) hbc hecan hac
      (by rw [hbl]; positivity) (by rw [hal]; positivity)
      (by rw [hbl, helin]; exact_mod_cast hb) hrange j
    simp only [hla, hlb, hk] at hmove
    have hlen2 := length_MoveBits w bv.mContainer (iterAt w b) (endIt w bv) (iterAt w a)
    have hsz2 : size w (⟨MoveBits w bv.mContainer (iterAt w b) (endIt w bv) (iterAt w a),
        bv.mFreeBitCount⟩ : Bitvector) = size w bv := by
      unfold size
      dsimp only
      rw [hlen2]
    rw [hsz2, hcount]
    refine ⟨?_, resize_inv hw junk _ _, trivial, ?_, ?_⟩
    · rw [size_resize hw]
    · intro j hj
      show bvGet w (resize w junk _ _) j = bvGet w bv j
      rw [show bvGet w (resize w junk (⟨MoveBits w bv.mContainer (iterAt w b) (endIt w bv)
          (iterAt w a), bv.mFreeBitCount⟩ : Bitvector) (size w bv - (b - a))) j
        = cGet w (MoveBits w bv.mContainer (iterAt w b) (endIt w bv) (iterAt w a)) j from
        bvGet_resize hw junk (by omega) (by dsimp only; rw [hlen2]; omega)]
      rw [hmove j, if_neg (by omega)]
      rfl
    · intro i hbi his
      show bvGet w (resize w junk _ _) (i - (b - a)) = bvGet w bv i
      rw [show bvGet w (resize w junk (⟨MoveBits w bv.mContainer (iterAt w b) (endIt w bv)
          (iterAt w a), bv.mFreeBitCount⟩ : Bitvector) (size w bv - (b - a))) (i - (b - a))
        = cGet w (MoveBits w bv.mContainer (iterAt w b) (endIt w bv) (iterAt w a)) (i - (b - a))
        from bvGet_resize hw junk (by omega) (by dsimp only; rw [hlen2]; omega)]
      rw [hmove _, if_pos (by omega)]
      have harg : b + (i - (b - a) - a) = i := by omega
      rw [harg]
      rfl

/-! ### `set`, constructors, reachability -/

theorem setBitv_inv {w : Nat} (hw : 0 < w) (junk : Nat) {bv : Bitvector} (h : Inv w bv)
    (n : Nat) (value : Bool) : Inv w (setBitv w junk bv n value) := by
  have hinv1 : Inv w (if size w bv ≤ n then resize w junk bv (n + 1) else bv) := by
    split
    · exact resize_inv hw junk bv (n + 1)
    · exact h
  exact inv_write hinv1 (itAdd w beginIt (n : Int)) value

theorem mkSized_inv {w : Nat} (hw : 0 < w) (junk n : Nat) : Inv w (mkSized w junk n) := by
  unfold mkSized Inv
  constructor
  · dsimp only
    have hm : n % w < w := Nat.mod_lt n hw
    split
    · exact hw
    · omega
  · intro hc
    dsimp only at hc ⊢
    have hl : (n + w - 1) / w = 0 := by
      have := congrArg List.length hc
      simpa using this
    obtain ⟨_, _, hc3⟩ := ceil_facts hw n
    have hn := hc3.mp hl
    subst hn
    simp

theorem mkSizedFill_inv {w : Nat} (hw : 0 < w) (n : Nat) (value : Bool) :
    Inv w (mkSizedFill w n value) := by
  unfold mkSizedFill Inv
  constructor
  · dsimp only
    have hm : n % w < w := Nat.mod_lt n hw
    split
    · exact hw
    · omega
  · intro hc
    dsimp only at hc ⊢
    have hl : (n + w - 1) / w = 0 := by
      have := congrArg List.length hc
      simpa using this
    obtain ⟨_, _, hc3⟩ := ceil_facts hw n
    have hn := hc3.mp hl
    subst hn
    simp

/-- The states reachable from the constructors by the container's public
mutating operations.  `popBack` carries its precondition (`EASTL_ASSERT
(!empty())`); `insert` and `erase` carry valid iterator positions, the
condition their `validateIterator` assertions check.  `swap`, `operator=`
and the copy constructor only exchange or duplicate already-reachable
states, and `assign` is `clear` followed by `pushBack`s, so none adds a
state. -/
inductive Reachable (w : Nat) : Bitvector → Prop where
  | ctorDefault : Reachable w mkBitvector
  | ctorSized (junk n : Nat) : Reachable w (mkSized w junk n)
  | ctorSizedFill (n : Nat) (value : Bool) : Reachable w (mkSizedFill w n value)
  | stepPushBack (junk : Nat) {bv : Bitvector} :
      Reachable w bv → Reachable w (pushBack w junk bv)
  | stepPushBackV (junk : Nat) (value : Bool) {bv : Bitvector} :
      Reachable w bv → Reachable w (pushBackV w junk bv value)
  | stepPopBack {bv : Bitvector} :
      Reachable w bv → bv.mContainer ≠ [] → Reachable w (popBack w bv)
  | stepResize (junk n : Nat) {bv : Bitvector} :
      Reachable w bv → Reachable w (resize w junk bv n)
  | stepResizeFill (junk n : Nat) (value : Bool) {bv : Bitvector} :
      Reachable w bv → Reachable w (resizeFill w junk bv n value)
  | stepSet (junk n : Nat) (value : Bool) {bv : Bitvector} :
      Reachable w bv → Reachable w (setBitv w junk bv n value)
  | stepInsert (junk p : Nat) (value : Bool) {bv : Bitvector} :
      Reachable w bv → p ≤ size w bv →
      Reachable w (insert w junk bv (iterAt w p) value).1
  | stepErase (junk a b : Nat) {bv : Bitvector} :
      Reachable w bv → a ≤ b → b ≤ size w bv →
      Reachable w (eraseRange w junk bv (iterAt w a) (iterAt w b)).1
  | stepClear {bv : Bitvector} : Reachable w bv → Reachable w (clear bv)
  | stepReset {bv : Bitvector} : Reachable w bv → Reachable w (resetLoseMemory bv)

theorem reachable_inv {w : Nat} (hw : 0 < w) {bv : Bitvector} (h : Reachable w bv) :
    Inv w bv := by
  induction h with
  | ctorDefault => exact ⟨hw, fun _ => rfl⟩
  | ctorSized junk n => exact mkSized_inv hw junk n
  | ctorSizedFill n value => exact mkSizedFill_inv hw n value
  | stepPushBack junk hr ih => exact pushBack_inv hw junk ih
  | stepPushBackV junk value hr ih => exact pushBackV_inv hw junk ih value
  | stepPopBack hr hne ih => exact popBack_inv hw ih hne
  | stepResize junk n hr ih => exact resize_inv hw junk _ n
  | stepResizeFill junk n value hr ih => exact resizeFill_inv hw junk ih n value
  | stepSet junk n value hr ih => exact setBitv_inv hw junk ih n value
  | stepInsert junk p value hr hp ih => exact (insert_spec hw junk ih hp value).2.1
  | stepErase junk a b hr hab hb ih => exact (eraseRange_spec hw junk ih hab hb).2.1
  | stepClear hr ih => exact ⟨hw, fun _ => rfl⟩
  | stepReset hr ih => exact ⟨hw, fun _ => rfl⟩

/-! ### Lexicographic comparison vs. `List.Lex` -/

theorem lexLt_iff {xs ys : List Bool} : lexLt xs ys = true ↔ List.Lex (· < ·) xs ys := by
  induction xs generalizing ys with
  | nil =>
    cases ys with
    | nil =>
      apply iff_of_false
      · simp [lexLt]
      · intro hcon
        cases hcon
    | cons y ys =>
      apply iff_of_true
      · rfl
      · exact List.Lex.nil
  | cons x xs ih =>
    cases ys with
    | nil =>
      apply iff_of_false
      · simp [lexLt]
      · intro hcon
        cases hcon
    | cons y ys =>
      show ((!x && y) || (x == y && lexLt xs ys)) = true ↔ _
      rw [Bool.or_eq_true, Bool.and_eq_true, Bool.and_eq_true, beq_iff_eq, ih]
      constructor
      · rintro (⟨hx, hy⟩ | ⟨hxy, hlex⟩)
        · exact List.Lex.rel (by rw [Bool.lt_iff]; exact ⟨by simpa using hx, hy⟩)
        · subst hxy
          exact List.Lex.cons hlex
      · intro hcon
        cases hcon with
        | cons h => exact Or.inr ⟨rfl, h⟩
        | rel h =>
          rw [Bool.lt_iff] at h
          exact Or.inl ⟨by simp [h.1], h.2⟩

/-! ## The claims -/

/-- C1: for every reachable state, `mFreeBitCount < kBitCount` and `size()`
equals `wordCount * kBitCount - mFreeBitCount` (stated additively, which also
shows the subtraction cannot underflow); `popBack` physically removes the
last word and resets `mFreeBitCount` to 0 when the free-tail count would
reach `kBitCount`; `resize(n)` leaves `wordCount = ceil(n / kBitCount)` and
`mFreeBitCount = wordCount * kBitCount - n`. -/
theorem c1_bookkeeping_invariant {w : Nat} (hw : 0 < w) {bv : Bitvector}
    (h : Reachable w bv) :
    (bv.mFreeBitCount < w ∧
      size w bv + bv.mFreeBitCount = bv.mContainer.length * w) ∧
    (∀ bv' : Bitvector, bv'.mFreeBitCount + 1 = w →
      popBack w bv' = ⟨bv'.mContainer.dropLast, 0⟩) ∧
    (∀ (junk n : Nat) (bv' : Bitvector),
      (resize w junk bv' n).mContainer.length = (n + w - 1) / w ∧
      (resize w junk bv' n).mFreeBitCount = ((n + w - 1) / w) * w - n) := by
  have hinv := reachable_inv hw h
  refine ⟨⟨hinv.1, size_add_free hinv⟩, ?_, ?_⟩
  · intro bv' hfree
    unfold popBack
    rw [if_pos hfree]
  · intro junk n bv'
    exact ⟨length_resize w junk bv' n, free_resize w junk bv' n⟩

theorem c1_bookkeeping_invariant_witness :
    (0 : Nat) < 8 ∧ Reachable 8 (pushBackV 8 0 mkBitvector true) ∧
    ((pushBackV 8 0 mkBitvector true).mFreeBitCount < 8 ∧
      size 8 (pushBackV 8 0 mkBitvector true) + (pushBackV 8 0 mkBitvector true).mFreeBitCount
        = (pushBackV 8 0 mkBitvector true).mContainer.length * 8) ∧
    (∀ bv' : Bitvector, bv'.mFreeBitCount + 1 = 8 →
      popBack 8 bv' = ⟨bv'.mContainer.dropLast, 0⟩) ∧
    (∀ (junk n : Nat) (bv' : Bitvector),
      (resize 8 junk bv' n).mContainer.length = (n + 8 - 1) / 8 ∧
      (resize 8 junk bv' n).mFreeBitCount = ((n + 8 - 1) / 8) * 8 - n) :=
  ⟨by decide, Reachable.stepPushBackV 0 true Reachable.ctorDefault,
    c1_bookkeeping_invariant (by decide)
      (Reachable.stepPushBackV 0 true Reachable.ctorDefault)⟩

/-- C10: in every reachable state the word container is empty exactly when
the logical size is 0 (`empty()` is `mContainer.empty()`); a zero word count
forces `mFreeBitCount = 0`; and `mFreeBitCount` never exceeds
`wordCount * kBitCount`, so `size()` never underflows. -/
theorem c10_empty_iff_size_zero {w : Nat} (hw : 0 < w) {bv : Bitvector}
    (h : Reachable w bv) :
    (isBvEmpty bv = true ↔ size w bv = 0) ∧
    (bv.mContainer.length = 0 → bv.mFreeBitCount = 0) ∧
    bv.mFreeBitCount ≤ bv.mContainer.length * w := by
  have hinv := reachable_inv hw h
  have hfl := free_le_of_inv hinv
  refine ⟨?_, ?_, hfl⟩
  · unfold isBvEmpty size
    rw [List.isEmpty_iff]
    constructor
    · intro hc
      rw [hc]
      simp
    · intro hs
      by_contra hc
      have hlen : 0 < bv.mContainer.length := List.length_pos.mpr hc
      have hwle : w ≤ bv.mContainer.length * w := Nat.le_mul_of_pos_left w hlen
      exact absurd (lt_of_le_of_lt (le_trans hwle (Nat.sub_eq_zero_iff_le.mp hs)) hinv.1)
        (lt_irrefl w)
  · intro hl
    exact hinv.2 (List.length_eq_zero.mp hl)

theorem c10_empty_iff_size_zero_witness :
    (0 : Nat) < 8 ∧ Reachable 8 (resize 8 0 mkBitvector 9) ∧
    ((isBvEmpty (resize 8 0 mkBitvector 9) = true ↔ size 8 (resize 8 0 mkBitvector 9) = 0) ∧
    ((resize 8 0 mkBitvector 9).mContainer.length = 0 →
      (resize 8 0 mkBitvector 9).mFreeBitCount = 0) ∧
    (resize 8 0 mkBitvector 9).mFreeBitCount ≤ (resize 8 0 mkBitvector 9).mContainer.length * 8) :=
  ⟨by decide, Reachable.stepResize 0 9 Reachable.ctorDefault,
    c10_empty_iff_size_zero (by decide) (Reachable.stepResize 0 9 Reachable.ctorDefault)⟩

/-- C5: bit-iterator arithmetic is coherent: for canonical iterators the
distance is `(word(b) - word(a)) * kBitCount + bit(b) - bit(a)`;
`a + (b - a) == b`; `operator+=` keeps the result canonical and implements
floor semantics on the linear position (`toLin (a += n) = toLin a + n`); in
particular `-1` from offset 0 lands on offset `kBitCount - 1` of the
previous word. -/
theorem c5_iterator_arithmetic {w : Nat} (hw : 0 < w) (a b : BitIter)
    (ha : canon w a) (hb : canon w b) (n : Int) :
    itSub w b a = (b.word - a.word) * w + (b.bit : Int) - (a.bit : Int) ∧
    itAdd w a (itSub w b a) = b ∧
    canon w (itAdd w a n) ∧
    toLin w (itAdd w a n) = toLin w a + n ∧
    itAdd w ⟨a.word, 0⟩ (-1) = ⟨a.word - 1, w - 1⟩ := by
  refine ⟨rfl, ?_, itAdd_canon hw a n, toLin_itAdd hw a n, ?_⟩
  · apply toLin_inj (itAdd_canon hw a _) hb
    rw [toLin_itAdd hw, itSub_eq]
    ring
  · apply toLin_inj (itAdd_canon hw _ _) (show canon w ⟨a.word - 1, w - 1⟩ by
      unfold canon
      dsimp only
      omega)
    rw [toLin_itAdd hw]
    unfold toLin
    dsimp only
    have hcast : ((w - 1 : Nat) : Int) = (w : Int) - 1 := by omega
    rw [hcast]
    push_cast
    ring

theorem c5_iterator_arithmetic_witness :
    (0 : Nat) < 8 ∧ canon 8 ⟨1, 7⟩ ∧ canon 8 ⟨3, 2⟩ ∧
    (itSub 8 ⟨3, 2⟩ ⟨1, 7⟩ = ((3 : Int) - 1) * 8 + (2 : Int) - (7 : Int) ∧
      itAdd 8 ⟨1, 7⟩ (itSub 8 ⟨3, 2⟩ ⟨1, 7⟩) = ⟨3, 2⟩ ∧
      canon 8 (itAdd 8 ⟨1, 7⟩ (-9)) ∧
      toLin 8 (itAdd 8 ⟨1, 7⟩ (-9)) = toLin 8 ⟨1, 7⟩ + (-9) ∧
      itAdd 8 ⟨(1 : Int), 0⟩ (-1) = ⟨(1 : Int) - 1, 8 - 1⟩) :=
  ⟨by decide, by decide, by decide,
    c5_iterator_arithmetic (by decide) ⟨1, 7⟩ ⟨3, 2⟩ (by decide) (by decide) (-9)⟩

/-- C8: the checked accessor `at(n)` fails with the out-of-range error
exactly when `n ≥ size()` and otherwise yields bit `n`; it does not mutate
(it is a pure function of the state here); `test(n, defaultValue)` never
fails, returning bit `n` when `n < size()` and `defaultValue` otherwise. -/
theorem c8_at_out_of_range {w : Nat} (hw : 0 < w) (bv : Bitvector) (n : Nat)
    (defaultValue : Bool) :
    ((atBitv w bv n).isOk = true ↔ n < size w bv) ∧
    (n < size w bv → atBitv w bv n = .ok (bvGet w bv n)) ∧
    (size w bv ≤ n → atBitv w bv n = .error "bitvector::at -- out of range") ∧
    (n < size w bv → test w bv n defaultValue = bvGet w bv n) ∧
    (size w bv ≤ n → test w bv n defaultValue = defaultValue) := by
  unfold atBitv test
  refine ⟨?_, ?_, ?_, ?_, ?_⟩
  · by_cases hn : size w bv ≤ n
    · rw [if_pos hn]
      simp [Except.isOk, Except.toBool]
      omega
    · rw [if_neg hn]
      simp [Except.isOk, Except.toBool]
      omega
  · intro hn
    rw [if_neg (by omega), readIt_iterAt hw]
  · intro hn
    rw [if_pos hn]
  · intro hn
    rw [if_pos hn, readIt_iterAt hw]
  · intro hn
    rw [if_neg (by omega)]

theorem c8_at_out_of_range_witness :
    (0 : Nat) < 8 ∧
    (((atBitv 8 ⟨[5], 5⟩ 2).isOk = true ↔ 2 < size 8 ⟨[5], 5⟩) ∧
    (2 < size 8 ⟨[5], 5⟩ → atBitv 8 ⟨[5], 5⟩ 2 = .ok (bvGet 8 ⟨[5], 5⟩ 2)) ∧
    (size 8 ⟨[5], 5⟩ ≤ 2 → atBitv 8 ⟨[5], 5⟩ 2 = .error "bitvector::at -- out of range") ∧
    (2 < size 8 ⟨[5], 5⟩ → test 8 ⟨[5], 5⟩ 2 false = bvGet 8 ⟨[5], 5⟩ 2) ∧
    (size 8 ⟨[5], 5⟩ ≤ 2 → test 8 ⟨[5], 5⟩ 2 false = false)) :=
  ⟨by decide, c8_at_out_of_range (by decide) ⟨[5], 5⟩ 2 false⟩

/-- C9: `a == b` holds iff the sizes agree and every bit below `a.size()`
agrees; `a < b` is the lexicographic order on the denoted bit sequences
(`List.Lex` with `false < true`), under which a proper prefix is smaller —
in particular `[1,0,1] < [1,0,1,0]`. -/
theorem c9_equality_and_order {w : Nat} (hw : 0 < w) (a b : Bitvector) :
    (bvEq w a b = true ↔
      size w a = size w b ∧ ∀ i, i < size w a → bvGet w a i = bvGet w b i) ∧
    (bvLt w a b = true ↔ List.Lex (· < ·) (toBits w a) (toBits w b)) ∧
    bvLt 8 ⟨[5], 5⟩ ⟨[5], 4⟩ = true ∧
    size 8 (⟨[5], 5⟩ : Bitvector) = 3 ∧ size 8 (⟨[5], 4⟩ : Bitvector) = 4 ∧
    toBits 8 ⟨[5], 5⟩ = [true, false, true] ∧
    toBits 8 ⟨[5], 4⟩ = [true, false, true, false] := by
  refine ⟨?_, lexLt_iff, by decide, by decide, by decide, by decide, by decide⟩
  unfold bvEq rangeEqual
  rw [Bool.and_eq_true, beq_iff_eq, List.all_eq_true]
  constructor
  · rintro ⟨h1, h2⟩
    refine ⟨h1, fun i hi => ?_⟩
    have := h2 i (List.mem_range.mpr hi)
    rwa [beq_iff_eq] at this
  · rintro ⟨h1, h2⟩
    refine ⟨h1, fun i hi => ?_⟩
    rw [beq_iff_eq]
    exact h2 i (List.mem_range.mp hi)

theorem c9_equality_and_order_witness :
    (0 : Nat) < 8 ∧
    ((bvEq 8 ⟨[5], 5⟩ ⟨[5], 5⟩ = true ↔
      size 8 ⟨[5], 5⟩ = size 8 ⟨[5], 5⟩ ∧
        ∀ i, i < size 8 ⟨[5], 5⟩ → bvGet 8 ⟨[5], 5⟩ i = bvGet 8 ⟨[5], 5⟩ i) ∧
    (bvLt 8 ⟨[5], 5⟩ ⟨[5], 5⟩ = true ↔
      List.Lex (· < ·) (toBits 8 ⟨[5], 5⟩) (toBits 8 ⟨[5], 5⟩)) ∧
    bvLt 8 ⟨[5], 5⟩ ⟨[5], 4⟩ = true ∧
    size 8 (⟨[5], 5⟩ : Bitvector) = 3 ∧ size 8 (⟨[5], 4⟩ : Bitvector) = 4 ∧
    toBits 8 ⟨[5], 5⟩ = [true, false, true] ∧
    toBits 8 ⟨[5], 4⟩ = [true, false, true, false]) :=
  ⟨by decide, c9_equality_and_order (by decide) ⟨[5], 5⟩ ⟨[5], 5⟩⟩

/-- C2: `insert(begin() + p, v)` grows the sequence by one bit, preserves the
bits below `p`, writes `v` at `p`, shifts each former bit at index `i ≥ p` to
`i + 1`, and returns the recomputed iterator `begin() + p`. -/
theorem c2_insert_shift {w : Nat} (hw : 0 < w) (junk : Nat) {bv : Bitvector}
    (h : Inv w bv) {p : Nat} (hp : p ≤ size w bv) (value : Bool) :
    size w (insert w junk bv (iterAt w p) value).1 = size w bv + 1 ∧
    (∀ j, j < p → bvGet w (insert w junk bv (iterAt w p) value).1 j = bvGet w bv j) ∧
    bvGet w (insert w junk bv (iterAt w p) value).1 p = value ∧
    (∀ i, p ≤ i → i < size w bv →
      bvGet w (insert w junk bv (iterAt w p) value).1 (i + 1) = bvGet w bv i) ∧
    (insert w junk bv (iterAt w p) value).2 = iterAt w p := by
  obtain ⟨h1, h2, h3, h4, h5, h6⟩ := insert_spec hw junk h hp value
  exact ⟨h1, h5, h4, h6, h3⟩

theorem c2_insert_shift_witness :
    (0 : Nat) < 8 ∧ Inv 8 ⟨[15], 4⟩ ∧ 2 ≤ size 8 ⟨[15], 4⟩ ∧
    (size 8 (insert 8 0 ⟨[15], 4⟩ (iterAt 8 2) false).1 = size 8 ⟨[15], 4⟩ + 1 ∧
      (∀ j, j < 2 →
        bvGet 8 (insert 8 0 ⟨[15], 4⟩ (iterAt 8 2) false).1 j = bvGet 8 ⟨[15], 4⟩ j) ∧
      bvGet 8 (insert 8 0 ⟨[15], 4⟩ (iterAt 8 2) false).1 2 = false ∧
      (∀ i, 2 ≤ i → i < size 8 ⟨[15], 4⟩ →
        bvGet 8 (insert 8 0 ⟨[15], 4⟩ (iterAt 8 2) false).1 (i + 1) = bvGet 8 ⟨[15], 4⟩ i) ∧
      (insert 8 0 ⟨[15], 4⟩ (iterAt 8 2) false).2 = iterAt 8 2) :=
  ⟨by decide, ⟨by decide, by decide⟩, by decide,
    c2_insert_shift (by decide) 0 ⟨by decide, by decide⟩ (by decide) false⟩

/-- C3: `erase(first, last)` with `first = begin() + a`, `last = begin() + b`
shrinks the sequence by `last - first = b - a` bits, preserves the bits below
`a`, and moves each former bit at index `i ≥ b` down to `i - (b - a)`. -/
theorem c3_erase_shift {w : Nat} (hw : 0 < w) (junk : Nat) {bv : Bitvector}
    (h : Inv w bv) {a b : Nat} (hab : a ≤ b) (hb : b ≤ size w bv) :
    size w (eraseRange w junk bv (iterAt w a) (iterAt w b)).1 = size w bv - (b - a) ∧
    (∀ j, j < a →
      bvGet w (eraseRange w junk bv (iterAt w a) (iterAt w b)).1 j = bvGet w bv j) ∧
    (∀ i, b ≤ i → i < size w bv →
      bvGet w (eraseRange w junk bv (iterAt w a) (iterAt w b)).1 (i - (b - a))
        = bvGet w bv i) ∧
    (eraseRange w junk bv (iterAt w a) (iterAt w b)).2 = iterAt w a := by
  obtain ⟨h1, h2, h3, h4, h5⟩ := eraseRange_spec hw junk h hab hb
  exact ⟨h1, h4, h5, h3⟩

theorem c3_erase_shift_witness :
    (0 : Nat) < 8 ∧ Inv 8 ⟨[13], 3⟩ ∧ 1 ≤ 3 ∧ 3 ≤ size 8 ⟨[13], 3⟩ ∧
    (size 8 (eraseRange 8 0 ⟨[13], 3⟩ (iterAt 8 1) (iterAt 8 3)).1 = size 8 ⟨[13], 3⟩ - (3 - 1) ∧
      (∀ j, j < 1 →
        bvGet 8 (eraseRange 8 0 ⟨[13], 3⟩ (iterAt 8 1) (iterAt 8 3)).1 j = bvGet 8 ⟨[13], 3⟩ j) ∧
      (∀ i, 3 ≤ i → i < size 8 ⟨[13], 3⟩ →
        bvGet 8 (eraseRange 8 0 ⟨[13], 3⟩ (iterAt 8 1) (iterAt 8 3)).1 (i - (3 - 1))
          = bvGet 8 ⟨[13], 3⟩ i) ∧
      (eraseRange 8 0 ⟨[13], 3⟩ (iterAt 8 1) (iterAt 8 3)).2 = iterAt 8 1) :=
  ⟨by decide, ⟨by decide, by decide⟩, by decide, by decide,
    c3_erase_shift (by decide) 0 ⟨by decide, by decide⟩ (by decide) (by decide)⟩

/-- C7: `set(n, value)` with `n ≥ size()` grows the sequence to exactly
`n + 1` bits via the no-fill `resize(n + 1)` and then writes `value` at `n`,
preserving the bits below the old size; with `n < size()` it writes `value`
at `n`, leaving `size()` and every other bit unchanged.  The final conjunct
exhibits the absence of zero-fill: growing `[1,1,1,1,1,1,1,1]`-worded state
`⟨[255], 7⟩` (logical bits `[1]`) by `set(5, false)` leaves bit 2 reading
`true`, the stale word content, not `false`. -/
theorem c7_set_grows_without_fill {w : Nat} (hw : 0 < w) (junk : Nat) {bv : Bitvector}
    (h : Inv w bv) (n : Nat) (value : Bool) :
    (size w bv ≤ n →
      size w (setBitv w junk bv n value) = n + 1 ∧
      bvGet w (setBitv w junk bv n value) n = value ∧
      (∀ j, j < size w bv → bvGet w (setBitv w junk bv n value) j = bvGet w bv j)) ∧
    (n < size w bv →
      size w (setBitv w junk bv n value) = size w bv ∧
      bvGet w (setBitv w junk bv n value) n = value ∧
      (∀ j, j < size w bv → j ≠ n → bvGet w (setBitv w junk bv n value) j = bvGet w bv j)) ∧
    bvGet 8 (setBitv 8 0 ⟨[255], 7⟩ 5 false) 2 = true := by
  refine ⟨?_, ?_, by decide⟩
  · intro hn
    have hinv1 := resize_inv hw junk bv (n + 1)
    have hsz1 := size_resize hw junk bv (n + 1)
    have hnlt : n < (resize w junk bv (n + 1)).mContainer.length * w := by
      have := size_lt_mul hinv1
      omega
    simp only [setBitv, if_pos hn]
    rw [writeIt_iterAt hw]
    refine ⟨?_, ?_, ?_⟩
    · show (cSet w (resize w junk bv (n + 1)).mContainer n value).length * w - _ = n + 1
      rw [length_cSet]
      exact hsz1
    · show cGet w (cSet w (resize w junk bv (n + 1)).mContainer n value) n = value
      exact cGet_cSet_self hw _ (Nat.div_lt_of_lt_mul (by rwa [Nat.mul_comm] at hnlt))
    · intro j hj
      show cGet w (cSet w (resize w junk bv (n + 1)).mContainer n value) j = bvGet w bv j
      rw [cGet_cSet_ne hw _ (by omega)]
      exact bvGet_resize hw junk (by omega) (by have := size_lt_mul h; omega)
  · intro hn
    have hnlt : n < bv.mContainer.length * w := by
      have := size_lt_mul h
      omega
    simp only [setBitv, if_neg (by omega : ¬ size w bv ≤ n)]
    rw [writeIt_iterAt hw]
    refine ⟨?_, ?_, ?_⟩
    · show (cSet w bv.mContainer n value).length * w - _ = size w bv
      rw [length_cSet]
      rfl
    · show cGet w (cSet w bv.mContainer n value) n = value
      exact cGet_cSet_self hw _ (Nat.div_lt_of_lt_mul (by rwa [Nat.mul_comm] at hnlt))
    · intro j hj hjn
      show cGet w (cSet w bv.mContainer n value) j = bvGet w bv j
      rw [cGet_cSet_ne hw _ (Ne.symm hjn)]
      rfl

theorem c7_set_grows_without_fill_witness :
    (0 : Nat) < 8 ∧ Inv 8 ⟨[255], 7⟩ ∧
    ((size 8 ⟨[255], 7⟩ ≤ 5 →
      size 8 (setBitv 8 0 ⟨[255], 7⟩ 5 false) = 5 + 1 ∧
      bvGet 8 (setBitv 8 0 ⟨[255], 7⟩ 5 false) 5 = false ∧
      (∀ j, j < size 8 ⟨[255], 7⟩ →
        bvGet 8 (setBitv 8 0 ⟨[255], 7⟩ 5 false) j = bvGet 8 ⟨[255], 7⟩ j)) ∧
    (5 < size 8 ⟨[255], 7⟩ →
      size 8 (setBitv 8 0 ⟨[255], 7⟩ 5 false) = size 8 ⟨[255], 7⟩ ∧
      bvGet 8 (setBitv 8 0 ⟨[255], 7⟩ 5 false) 5 = false ∧
      (∀ j, j < size 8 ⟨[255], 7⟩ → j ≠ 5 →
        bvGet 8 (setBitv 8 0 ⟨[255], 7⟩ 5 false) j = bvGet 8 ⟨[255], 7⟩ j)) ∧
    bvGet 8 (setBitv 8 0 ⟨[255], 7⟩ 5 false) 2 = true) :=
  ⟨by decide, ⟨by decide, by decide⟩,
    c7_set_grows_without_fill (by decide) 0 ⟨by decide, by decide⟩ 5 false⟩

/-- C4 (evaluation of the code at the failing input): for a `bitvector` with
one full word (`mContainer = [0]`, `mFreeBitCount = 0`, `kBitCount = 8`), the
end iterator is `(word 1, bit 0)`, yet `validateIterator` classifies it as
`isf_none` when the out-of-range word one past the container reads 0, and as
`isf_valid | isf_current` when that word reads 1: the branch
`pCurrent == pEnd && mReference` dereferences the iterator at the end
position, so the classification depends on memory past the sequence instead
of the iterator's coordinates alone, and a genuine end iterator can be
reported invalid. -/
theorem c4_validate_end_depends_on_memory :
    endIt 8 ⟨[0], 0⟩ = ⟨1, 0⟩ ∧
    validateIterator 8 (fun _ => 0) ⟨[0], 0⟩ ⟨1, 0⟩ = isfNone ∧
    validateIterator 8 (fun _ => 1) ⟨[0], 0⟩ ⟨1, 0⟩ = (isfValid ||| isfCurrent) ∧
    isfNone ≠ (isfValid ||| isfCurrent) := by
  refine ⟨by decide, by decide, by decide, by decide⟩

theorem elem_testBit {w : Nat} (value : Bool) {i : Nat} (hi : i < w) :
    (if value then (1 <<< w) - 1 else 0).testBit i = value := by
  cases value
  · simp [Nat.zero_testBit]
  · simp only [if_true]
    rw [Nat.shiftLeft_eq, one_mul, Nat.testBit_two_pow_sub_one]
    simp [hi]

/-- C6: `resize(n, value)` results in `size() = n`, leaves the bits below
`min(oldSize, n)` unchanged, and when growing every newly created bit in
`[oldSize, n)` reads `value` — the partial last word is filled one bit at a
time and whole new words are appended pre-filled.  (The `size_type` bounds
keep the machine subtraction `n - oldSize` out of wraparound territory in
the branches where the source relies on it.) -/
theorem c6_resize_fill {w : Nat} (hw : 0 < w) (junk : Nat) {bv : Bitvector}
    (h : Inv w bv) (n : Nat) (value : Bool) (hs : size w bv < 2 ^ 63)
    (hwle : w ≤ 2 ^ 63) (hn : n < 2 ^ 64) :
    size w (resizeFill w junk bv n value) = n ∧
    (∀ j, j < size w bv → j < n →
      bvGet w (resizeFill w junk bv n value) j = bvGet w bv j) ∧
    (∀ j, size w bv ≤ j → j < n →
      bvGet w (resizeFill w junk bv n value) j = value) := by
  have h64 : (2 : Nat) ^ 64 = 18446744073709551616 := by norm_num
  have h63 : (2 : Nat) ^ 63 = 9223372036854775808 := by norm_num
  unfold resizeFill
  by_cases hshrink : n < size w bv
  · rw [if_pos hshrink]
    have hinv1 : Inv w (resize w junk bv n) := resize_inv hw junk bv n
    have hsz1 : size w (resize w junk bv n) = n := size_resize hw junk bv n
    have hlen1 : (resize w junk bv n).mContainer.length = (n + w - 1) / w :=
      length_resize w junk bv n
    have hnewbits : usub n (size w bv) = M64 - (size w bv - n) :=
      usub_of_gt hshrink (by rw [M64_eq]; omega)
    obtain ⟨hf1, hf2, hf3, hf4, hf5, hf6, hf7⟩ :=
      fillLoop_spec hw junk value (resize w junk bv n).mFreeBitCount (resize w junk bv n)
        (usub n (size w bv)) hinv1 le_rfl
    have hfree_le : (resize w junk bv n).mFreeBitCount ≤ usub n (size w bv) := by
      have := hinv1.1
      rw [hnewbits, M64_eq]
      omega
    have hmin : min (resize w junk bv n).mFreeBitCount (usub n (size w bv))
        = (resize w junk bv n).mFreeBitCount := min_eq_left hfree_le
    have hres2 : (fillLoop w junk value (resize w junk bv n).mFreeBitCount
        (resize w junk bv n) (usub n (size w bv))).2 ≠ 0 := by
      rw [hf3, hmin, hnewbits, M64_eq]
      have := hinv1.1
      omega
    unfold resizeFillTail
    rw [if_pos hres2]
    have hreslen : (fillLoop w junk value (resize w junk bv n).mFreeBitCount
        (resize w junk bv n) (usub n (size w bv))).1.mContainer.length = (n + w - 1) / w := by
      rw [hf1, hlen1]
    have hctr : ctrResizeFill (fillLoop w junk value (resize w junk bv n).mFreeBitCount
          (resize w junk bv n) (usub n (size w bv))).1.mContainer ((n + w - 1) / w)
          (if value then (1 <<< w) - 1 else 0)
        = (fillLoop w junk value (resize w junk bv n).mFreeBitCount
          (resize w junk bv n) (usub n (size w bv))).1.mContainer := by
      unfold ctrResizeFill
      rw [if_pos (le_of_eq hreslen.symm), ← hreslen, List.take_length]
    obtain ⟨hc1, hc2, _⟩ := ceil_facts hw n
    refine ⟨?_, ?_, ?_⟩
    · unfold size
      dsimp only
      rw [length_ctrResizeFill]
      omega
    · intro j hj1 hj2
      show cGet w (ctrResizeFill _ _ _) j = bvGet w bv j
      rw [hctr]
      have hstep1 := hf6 j (by omega)
      rw [show cGet w (fillLoop w junk value (resize w junk bv n).mFreeBitCount
          (resize w junk bv n) (usub n (size w bv))).1.mContainer j
        = bvGet w (fillLoop w junk value (resize w junk bv n).mFreeBitCount
          (resize w junk bv n) (usub n (size w bv))).1 j from rfl, hstep1]
      exact bvGet_resize hw junk hj2 (by have := size_lt_mul h; omega)
    · intro j hj1 hj2
      omega
  · rw [if_neg hshrink]
    have hnewbits : usub n (size w bv) = n - size w bv :=
      usub_of_le (by omega) (by rw [M64_eq]; omega)
    obtain ⟨hf1, hf2, hf3, hf4, hf5, hf6, hf7⟩ :=
      fillLoop_spec hw junk value bv.mFreeBitCount bv (usub n (size w bv)) h le_rfl
    by_cases hres2 : (fillLoop w junk value bv.mFreeBitCount bv (usub n (size w bv))).2 ≠ 0
    · have hkfree : min bv.mFreeBitCount (usub n (size w bv)) = bv.mFreeBitCount := by
        rcases Nat.le_total bv.mFreeBitCount (usub n (size w bv)) with hle | hle
        · exact min_eq_left hle
        · exfalso
          apply hres2
          rw [hf3, min_eq_right hle]
          omega
      unfold resizeFillTail
      rw [if_pos hres2]
      have hsfree := size_add_free h
      have hngt : bv.mContainer.length * w < n := by
        rw [hf3, hkfree, hnewbits] at hres2
        omega
      obtain ⟨hc1, hc2, _⟩ := ceil_facts hw n
      have hceil_gt : bv.mContainer.length < (n + w - 1) / w := by
        have hlt : bv.mContainer.length * w < ((n + w - 1) / w) * w := by omega
        exact Nat.lt_of_mul_lt_mul_right hlt
      have hreslen : (fillLoop w junk value bv.mFreeBitCount bv
          (usub n (size w bv))).1.mContainer.length = bv.mContainer.length := hf1
      have hctr : ctrResizeFill (fillLoop w junk value bv.mFreeBitCount bv
            (usub n (size w bv))).1.mContainer ((n + w - 1) / w)
            (if value then (1 <<< w) - 1 else 0)
          = (fillLoop w junk value bv.mFreeBitCount bv (usub n (size w bv))).1.mContainer
            ++ List.replicate ((n + w - 1) / w
              - (fillLoop w junk value bv.mFreeBitCount bv
                  (usub n (size w bv))).1.mContainer.length)
              (if value then (1 <<< w) - 1 else 0) := by
        unfold ctrResizeFill
        rw [if_neg (by rw [hreslen]; omega)]
      have hszres : size w (fillLoop w junk value bv.mFreeBitCount bv
          (usub n (size w bv))).1 = size w bv + bv.mFreeBitCount := by
        rw [hf5, hkfree]
      refine ⟨?_, ?_, ?_⟩
      · unfold size
        dsimp only
        rw [length_ctrResizeFill]
        omega
      · intro j hj1 hj2
        show cGet w (ctrResizeFill _ _ _) j = bvGet w bv j
        rw [hctr, cGet_append_left hw (by rw [hreslen]; omega)]
        exact hf6 j hj1
      · intro j hj1 hj2
        show cGet w (ctrResizeFill _ _ _) j = value
        rw [hctr]
        by_cases hzone : j < bv.mContainer.length * w
        · rw [cGet_append_left hw (by rw [hreslen]; omega)]
          apply hf7 j hj1
          rw [hkfree]
          omega
        · rw [cGet_append_replicate hw (by rw [hreslen]; omega)
            (by rw [hreslen]
                have : bv.mContainer.length
                    + ((n + w - 1) / w - bv.mContainer.length) = (n + w - 1) / w := by omega
                rw [this]
                omega)]
          exact elem_testBit value (Nat.mod_lt _ hw)
    · have hmin : min bv.mFreeBitCount (usub n (size w bv)) = usub n (size w bv) := by
        rw [hf3] at hres2
        omega
      unfold resizeFillTail
      rw [if_neg hres2]
      refine ⟨?_, ?_, ?_⟩
      · rw [hf5, hmin, hnewbits]
        omega
      · intro j hj1 hj2
        exact hf6 j hj1
      · intro j hj1 hj2
        apply hf7 j hj1
        rw [hmin, hnewbits]
        omega

theorem c6_resize_fill_witness :
    (0 : Nat) < 8 ∧ Inv 8 ⟨[1], 7⟩ ∧ size 8 ⟨[1], 7⟩ < 2 ^ 63 ∧ (8 : Nat) ≤ 2 ^ 63 ∧
    (20 : Nat) < 2 ^ 64 ∧
    (size 8 (resizeFill 8 0 ⟨[1], 7⟩ 20 true) = 20 ∧
      (∀ j, j < size 8 ⟨[1], 7⟩ → j < 20 →
        bvGet 8 (resizeFill 8 0 ⟨[1], 7⟩ 20 true) j = bvGet 8 ⟨[1], 7⟩ j) ∧
      (∀ j, size 8 ⟨[1], 7⟩ ≤ j → j < 20 →
        bvGet 8 (resizeFill 8 0 ⟨[1], 7⟩ 20 true) j = true)) :=
  ⟨by decide, ⟨by decide, by decide⟩, by norm_num [size], by norm_num, by norm_num,
    c6_resize_fill (by decide) 0 ⟨by decide, by decide⟩ 20 true (by norm_num [size])
      (by norm_num) (by norm_num)⟩

end EastlBitvector
